import Mathlib

/-!
Verification of the corona_drones repository (Python sources
`prepare_data.py` and `assign_tours.py`) against its specification.

The Python code is shallowly embedded: every function below is a direct
translation of the corresponding Python function; demands are natural
numbers, durations and coordinates are rationals (the Python floats are
modelled as exact rationals), NumPy arrays are Lean lists, and the Python
dict `jobs_assignment` (whose keys are always worker indices below the
worker count, a missing key standing for a worker that received no job)
is modelled as a list of per-worker job-index lists of length equal to
the worker count.
-/

namespace CoronaDrones

attribute [local semireducible] Rat.add Rat.mul Rat.sub Rat.inv

/-- A demand point as in `prepare_data.py`: a longitude, a latitude and a
`Population` field (a non-negative integer demand). -/
structure Point where
  lon : ℚ
  lat : ℚ
  population : ℕ
deriving DecidableEq, Repr, Inhabited

/-! ## Small list helpers shared by the embeddings -/

/-- Maximum of a list of rationals against the floor value 0; for a
non-empty list of non-negative entries this is exactly the maximum entry.
Used as the makespan of a vector of worker loads. -/
def makespan (l : List ℚ) : ℚ := l.foldl max 0

/-- Index of the first occurrence of the minimal element, as computed by
`np.argmin` (strict comparison keeps the earliest minimum). Auxiliary
recursion carrying the index of the next element, the best index so far
and the best value so far. -/
def argminAux : List ℚ → ℕ → ℕ → ℚ → ℕ
  | [], _, best, _ => best
  | x :: xs, i, best, bv =>
      if x < bv then argminAux xs (i + 1) i x else argminAux xs (i + 1) best bv

/-- Index of the first minimal element of a list, `np.argmin`; junk value 0
on the empty list (NumPy raises there, but the code only calls it on a
vector of length `number_of_drones` which is positive). -/
def argmin : List ℚ → ℕ
  | [] => 0
  | x :: xs => argminAux xs 1 0 x

/-- Add `x` to the entry of `l` at position `i` (in-place NumPy update
`bins[i] = bins[i] + x`); out-of-range positions leave the list unchanged,
matching `List.set`. -/
def addAt (l : List ℚ) (i : ℕ) (x : ℚ) : List ℚ := l.set i (l.getD i 0 + x)

/-! ## The LPT approximate assigner, from `assign_tours.py` (`lpt`) -/

/-- Index comparison used to model `np.argsort(jobs)` (ascending, stable):
index `i` comes before index `j` when its job value is smaller, ties broken
by the original index. Since distinct indices always compare strictly, this
total order determines the argsort result uniquely. -/
def idxLe (jobs : List ℚ) (i j : ℕ) : Prop :=
  jobs.getD i 0 < jobs.getD j 0 ∨ (jobs.getD i 0 = jobs.getD j 0 ∧ i ≤ j)

instance (jobs : List ℚ) : DecidableRel (idxLe jobs) := by
  intro i j
  unfold idxLe
  infer_instance

/-- One admissible realization of the order in which `lpt` walks the
jobs, `np.argsort(jobs)[::-1]`: the reversal of the stable ascending
insertion sort of the indices. `np.argsort` with its default quicksort
kind guarantees only an index permutation along which the values are
non-decreasing (see `isArgsortOf`); it is not stable in general (numpy
falls back to a stable insertion sort only below its small-array
threshold), so this definition fixes one admissible tie order among equal
durations. Statements that are independent of the tie order are proved
against an arbitrary `isArgsortOf` order. -/
def lptOrder (jobs : List ℚ) : List ℕ :=
  (List.insertionSort (idxLe jobs) (List.range jobs.length)).reverse

/-- One step of the `lpt` loop on the pair state
(`jobs_assignment`, `bins`): find the worker of minimal load, append the
original index of the current job to its assignment list and add the job
duration to its load. -/
def lptStepFull (st : List (List ℕ) × List ℚ) (job : ℕ × ℚ) :
    List (List ℕ) × List ℚ :=
  let i := argmin st.2
  (st.1.set i (st.1.getD i [] ++ [job.1]), addAt st.2 i job.2)

/-- Result of the `lpt` function: the `jobs_assignment` dict (worker index
to list of original job indices, in assignment order; workers absent from
the Python dict are the workers with an empty list here) and the `bins`
vector of worker loads. -/
structure LPTResult where
  assignment : List (List ℕ)
  bins : List ℚ
deriving DecidableEq, Repr

/-- The Longest Processing Time assigner `lpt(number_of_drones, jobs)` of
`assign_tours.py`: walk the jobs in the order `np.argsort(jobs)[::-1]`
(values `np.sort(jobs)[::-1]`), always giving the current job to the
worker `np.argmin(bins)` of smallest current load. -/
def lpt (number_of_drones : ℕ) (jobs : List ℚ) : LPTResult :=
  let order := lptOrder jobs
  let pairs := order.map (fun i => (i, jobs.getD i 0))
  let st := pairs.foldl lptStepFull
    (List.replicate number_of_drones [], List.replicate number_of_drones 0)
  ⟨st.1, st.2⟩

/-- Loads-only version of the `lpt` loop: fold the job values (already in
processing order) over the `bins` vector. -/
def lptStep (bins : List ℚ) (x : ℚ) : List ℚ := addAt bins (argmin bins) x

/-- Loads produced by running the greedy loop of `lpt` on a list `p` of
job durations taken in the given order. -/
def lptLoads (W : ℕ) (p : List ℚ) : List ℚ :=
  p.foldl lptStep (List.replicate W 0)

/-- The body of `lpt` abstracted over the processing order: walk the job
indices of `order`, giving each job to the currently least-loaded worker. -/
def lptOn (number_of_drones : ℕ) (jobs : List ℚ) (order : List ℕ) : LPTResult :=
  let pairs := order.map (fun i => (i, jobs.getD i 0))
  let st := pairs.foldl lptStepFull
    (List.replicate number_of_drones [], List.replicate number_of_drones 0)
  ⟨st.1, st.2⟩

/-- Processing order as worded by the specification: duration descending,
ties broken by original index ascending. -/
def specIdxLe (jobs : List ℚ) (i j : ℕ) : Prop :=
  jobs.getD j 0 < jobs.getD i 0 ∨ (jobs.getD i 0 = jobs.getD j 0 ∧ i ≤ j)

instance (jobs : List ℚ) : DecidableRel (specIdxLe jobs) := by
  intro i j
  unfold specIdxLe
  infer_instance

/-- Order of job indices demanded by the specification sentence
"Sort jobs by duration descending, breaking ties by original index
ascending". -/
def lptSpecOrder (jobs : List ℚ) : List ℕ :=
  List.insertionSort (specIdxLe jobs) (List.range jobs.length)

/-- The assigner as worded by the specification: LPT with ties between
equal durations broken by original index ascending. -/
def lptSpec (number_of_drones : ℕ) (jobs : List ℚ) : LPTResult :=
  lptOn number_of_drones jobs (lptSpecOrder jobs)

/-- Processing order actually realized by the code: duration descending,
ties broken by original index descending. -/
def descIdxLe (jobs : List ℚ) (i j : ℕ) : Prop :=
  jobs.getD j 0 < jobs.getD i 0 ∨ (jobs.getD i 0 = jobs.getD j 0 ∧ j ≤ i)

instance (jobs : List ℚ) : DecidableRel (descIdxLe jobs) := by
  intro i j
  unfold descIdxLe
  infer_instance

/-- Order of job indices sorted by duration descending with ties broken by
original index descending; the amended description of the code. -/
def lptDescOrder (jobs : List ℚ) : List ℕ :=
  List.insertionSort (descIdxLe jobs) (List.range jobs.length)

/-- The assigner described directly: LPT processing jobs by duration
descending, ties between equal durations by original index descending. -/
def lptDesc (number_of_drones : ℕ) (jobs : List ℚ) : LPTResult :=
  lptOn number_of_drones jobs (lptDescOrder jobs)

/-- The documented contract of `np.argsort` on the job list, with no
stability assumption (the default quicksort kind is not stable): the
result is some permutation of all job indices along which the job values
are non-decreasing. Any order among indices of equal durations is
admissible. -/
def isArgsortOf (jobs : List ℚ) (ord : List ℕ) : Prop :=
  ord.Perm (List.range jobs.length) ∧
  (ord.map (fun i => jobs.getD i 0)).Pairwise (fun a b : ℚ => a ≤ b)

/-! ## The optimal makespan (the quantity the LPT bound is measured
against): minimum over all assignments of jobs to workers -/

/-- Minimum of a non-empty list of rationals (junk value 0 on the empty
list). -/
def listMin : List ℚ → ℚ
  | [] => 0
  | x :: xs => xs.foldl min x

/-- All assignments of `n` jobs to `W` workers, each coded as a list of
`n` worker indices below `W`, aligned with the job list. -/
def allAssignments (W : ℕ) : ℕ → List (List ℕ)
  | 0 => [[]]
  | n + 1 => (List.range W).flatMap
      (fun w => (allAssignments W n).map (fun f => w :: f))

/-- Load vector produced by an assignment `f` (one worker index per job):
start from `W` zero loads and add every job duration to the load of its
worker. -/
def loadsOf (W : ℕ) (jobs : List ℚ) (f : List ℕ) : List ℚ :=
  (f.zip jobs).foldl (fun L p => addAt L p.1 p.2) (List.replicate W 0)

/-- Minimum possible makespan over all assignments of the jobs to `W`
workers. -/
def optimalMakespan (W : ℕ) (jobs : List ℚ) : ℚ :=
  listMin ((allAssignments W jobs.length).map
    (fun f => makespan (loadsOf W jobs f)))

/-! ## The tour cost model, from `assign_tours.py`
(`compute_jobs_durations` and the module constants) -/

/-- A stop of a route, as read from the tours file: a latitude and a
longitude. -/
structure Stop where
  lat : ℚ
  lon : ℚ
deriving DecidableEq, Repr, Inhabited

/-- A route of the tours file: the list of its stops and its total
distance in meters. -/
structure Route where
  stops : List Stop
  distance : ℚ
deriving DecidableEq, Repr, Inhabited

/-- Module constant `speed_km_h = 60` of `assign_tours.py`. -/
def speed_km_h : ℚ := 60

/-- Module constant `stop_time_min = 15` of `assign_tours.py`. -/
def stop_time_min : ℚ := 15

/-- Module constant `stop_time_sec = stop_time_min*60`. -/
def stop_time_sec : ℚ := stop_time_min * 60

/-- Module constant `speed_m_s = speed_km_h*1000/(60*60)`. -/
def speed_m_s : ℚ := speed_km_h * 1000 / (60 * 60)

/-- Two stops share coordinates (the test negated inside the loop of
`compute_jobs_durations`). -/
def sameCoords (a b : Stop) : Prop := a.lat = b.lat ∧ a.lon = b.lon

instance : ∀ a b : Stop, Decidable (sameCoords a b) := by
  intro a b
  unfold sameCoords
  infer_instance

/-- The `number_of_stops` counter of `compute_jobs_durations`: walk the
consecutive stop pairs and count those whose coordinates differ; the first
stop is compared with nothing. -/
def number_of_stops : List Stop → ℕ
  | a :: b :: rest =>
      (if sameCoords a b then 0 else 1) + number_of_stops (b :: rest)
  | _ => 0

/-- The function `compute_jobs_durations(tours)` of `assign_tours.py`:
every route becomes the job duration
`distance / speed_m_s + number_of_stops * stop_time_sec`. -/
def compute_jobs_durations (routes : List Route) : List ℚ :=
  routes.map (fun r =>
    r.distance / speed_m_s + (number_of_stops r.stops : ℚ) * stop_time_sec)

/-! ## The distance matrix, from `prepare_data.py`
(`compute_distance_matrix`) -/

/-- Coordinate test of `compute_distance_matrix`:
`abs(p1.lat - p2.lat) > 0 or abs(p1.lon - p2.lon) > 0`. -/
def coordsDiffer (p q : Point) : Prop :=
  0 < |p.lat - q.lat| ∨ 0 < |p.lon - q.lon|

instance : ∀ p q : Point, Decidable (coordsDiffer p q) := by
  intro p q
  unfold coordsDiffer
  infer_instance

/-- Distance stored for the pair `(p1, p2)` of the inner loop: the
geodesic distance when the coordinates differ, and 0 otherwise. The
geodesic distance function itself (`geopy.distance.distance(...).m`) is an
external library and is a parameter `geodesic` of the embedding. -/
def pairDist (geodesic : Point → Point → ℚ) (p1 p2 : Point) : ℚ :=
  if coordsDiffer p1 p2 then geodesic p1 p2 else 0

/-- The function `compute_distance_matrix(all_points)` of
`prepare_data.py`. The double loop writes each entry exactly once
(entry `(x, y)` with `x < y` and its mirror both from the pair
`(points[x], points[y])`; the diagonal keeps the `np.zeros` value), so the
matrix is given by its final closed form. -/
def compute_distance_matrix (geodesic : Point → Point → ℚ)
    (all_points : List Point) : List (List ℚ) :=
  (List.range all_points.length).map (fun x =>
    (List.range all_points.length).map (fun y =>
      if x < y then
        pairDist geodesic (all_points.getD x default) (all_points.getD y default)
      else if y < x then
        pairDist geodesic (all_points.getD y default) (all_points.getD x default)
      else 0))

/-! ## The demand splitter, from `prepare_data.py`
(`near_split` and `split_dense_points`) -/

/-- The function `near_split(x, num_bins)` of `prepare_data.py`:
`quotient, remainder = divmod(x, num_bins)` and then
`[quotient + 1] * remainder + [quotient] * (num_bins - remainder)`.
Stated on naturals; the splitter only calls it with a positive bin count. -/
def near_split (x : ℕ) (num_bins : ℕ) : List ℕ :=
  List.replicate (x % num_bins) (x / num_bins + 1) ++
  List.replicate (num_bins - x % num_bins) (x / num_bins)

/-- The bin count `math.ceil(point.population / max_point_capacity)` of
`split_dense_points`, as the exact ceiling division of naturals (the
Python float division is exact on the magnitudes at hand). -/
def numBins (pop cap : ℕ) : ℕ := (pop + cap - 1) / cap

/-- Body of the loop of `split_dense_points` for the point of index `i`:
a point of positive demand is replaced by one copy per part of
`near_split`, a point of zero demand passes through; every emitted point
carries the index `i` of its origin (the `indices_of_orig_points` list). -/
def splitOne (p : Point) (i : ℕ) (cap : ℕ) : List (Point × ℕ) :=
  if 0 < p.population then
    (near_split p.population (numBins p.population cap)).map
      (fun part => ({ p with population := part }, i))
  else [(p, i)]

/-- The `points` and `indices_of_orig_points` lists accumulated by the
first loop of `split_dense_points`, as one list of pairs. -/
def splitWithOrigins (orig : List Point) (cap : ℕ) : List (Point × ℕ) :=
  (List.range orig.length).flatMap (fun i => splitOne (orig.getD i default) i cap)

/-- The function `split_dense_points(orig_points, orig_distance_matrix,
max_point_capacity)` of `prepare_data.py`: the expanded point list, and
the expanded matrix whose entry `(x, y)` is the original entry at the
origin indices of `x` and `y`. -/
def split_dense_points (orig_points : List Point)
    (orig_distance_matrix : List (List ℚ)) (cap : ℕ) :
    List Point × List (List ℚ) :=
  let pts := splitWithOrigins orig_points cap
  (pts.map Prod.fst,
   pts.map (fun a => pts.map (fun b =>
     (orig_distance_matrix.getD a.2 []).getD b.2 0)))

/-! ## The distance cache, from `prepare_data.py` (`create_data_model`) -/

/-- The caching wrapper of `create_data_model`: when the cache file is
absent (`cache = none`), compute the matrix, persist it and report one
computation; when present, return the persisted matrix and report no
computation. The pickle round trip is modelled as the identity (the
serialized matrix reloads bit-identically). -/
def getOrCompute (geodesic : Point → Point → ℚ) (all_points : List Point)
    (cache : Option (List (List ℚ))) :
    List (List ℚ) × Option (List (List ℚ)) × ℕ :=
  match cache with
  | none =>
      (compute_distance_matrix geodesic all_points,
       some (compute_distance_matrix geodesic all_points), 1)
  | some m => (m, some m, 0)

/-- The function `create_data_model(max_point_capacity, use_cache=True)` of
`prepare_data.py`, with the loaded point list a parameter and the cache
file an explicit state: obtain the distance matrix through the cache, then
split the dense points. Returns the data model, the new cache state and how
many times `compute_distance_matrix` ran. -/
def create_data_model (geodesic : Point → Point → ℚ) (all_points : List Point)
    (max_point_capacity : ℕ) (cache : Option (List (List ℚ))) :
    (List Point × List (List ℚ)) × Option (List (List ℚ)) × ℕ :=
  let r := getOrCompute geodesic all_points cache
  (split_dense_points all_points r.1 max_point_capacity, r.2.1, r.2.2)

/-! ## Exception-level model of the splitter for arbitrary integer cap
(claim about cap validation) -/

/-- The only exception the splitter can actually raise: the
`ZeroDivisionError` of a Python division by zero. The code contains no
`InvalidConfiguration` validation. -/
inductive SplitError where
  | zeroDivision
deriving DecidableEq, Repr

/-- A point with integer demand, for running the splitter outside the
non-negative regime. -/
structure ZPoint where
  lon : ℚ
  lat : ℚ
  population : ℤ
deriving DecidableEq, Repr, Inhabited

/-- Python `math.ceil(a / b)` on integers: raises `ZeroDivisionError` when
`b = 0`, otherwise the exact ceiling of the quotient. -/
def ceilDivZ (a b : ℤ) : Except SplitError ℤ :=
  if b = 0 then .error .zeroDivision else .ok ⌈(a : ℚ) / (b : ℚ)⌉

/-- `near_split` under Python integer semantics for an arbitrary integer
bin count: `divmod` floors (`Int.fdiv` / `Int.fmod`), raises on a zero
divisor, and a list replication `[v] * n` with negative `n` is empty
(`Int.toNat` clamps at 0). -/
def near_splitZ (x : ℤ) (num_bins : ℤ) : Except SplitError (List ℤ) :=
  if num_bins = 0 then .error .zeroDivision
  else .ok (List.replicate (x.fmod num_bins).toNat (x.fdiv num_bins + 1) ++
            List.replicate (num_bins - x.fmod num_bins).toNat (x.fdiv num_bins))

/-- Loop body of `split_dense_points` under Python integer semantics, for
an arbitrary integer cap. -/
def splitOneZ (p : ZPoint) (i : ℕ) (cap : ℤ) :
    Except SplitError (List (ZPoint × ℕ)) :=
  if 0 < p.population then do
    let k ← ceilDivZ p.population cap
    let parts ← near_splitZ p.population k
    pure (parts.map (fun part => ({ p with population := part }, i)))
  else pure [(p, i)]

/-- `split_dense_points` under Python integer semantics for an arbitrary
integer cap: the loop either raises the first exception it meets or
returns the expanded points and matrix. -/
def split_dense_pointsZ (orig_points : List ZPoint)
    (orig_distance_matrix : List (List ℚ)) (cap : ℤ) :
    Except SplitError (List ZPoint × List (List ℚ)) := do
  let pts ← (List.range orig_points.length).foldlM
    (fun acc i => do
      let e ← splitOneZ (orig_points.getD i default) i cap
      pure (acc ++ e)) []
  pure (pts.map Prod.fst,
        pts.map (fun a => pts.map (fun b =>
          (orig_distance_matrix.getD a.2 []).getD b.2 0)))

/-- Concrete four-stop tour of the specification scenario: stops 2 and 3
(1-based) share coordinates, all other consecutive stops differ, total
distance 1000 meters. -/
def exampleTour : Route :=
  ⟨[⟨0, 0⟩, ⟨1, 0⟩, ⟨1, 0⟩, ⟨2, 0⟩], 1000⟩

/-! # Theorems -/

/-! ## Helper lemmas on `makespan` -/

theorem foldl_max_shift (l : List ℚ) : ∀ b c : ℚ,
    List.foldl max (max b c) l = max b (List.foldl max c l) := by
  induction l with
  | nil => intro b c; rfl
  | cons x t ih =>
      intro b c
      simp only [List.foldl_cons, max_assoc, ih]

theorem makespan_nil : makespan [] = 0 := rfl

theorem makespan_cons (a : ℚ) (t : List ℚ) :
    makespan (a :: t) = max a (makespan t) := by
  unfold makespan
  simp only [List.foldl_cons]
  rw [max_comm 0 a, foldl_max_shift]

theorem makespan_nonneg (l : List ℚ) : 0 ≤ makespan l := by
  induction l with
  | nil => simp [makespan_nil]
  | cons a t ih => rw [makespan_cons]; exact le_max_of_le_right ih

theorem le_makespan {l : List ℚ} {x : ℚ} (hx : x ∈ l) : x ≤ makespan l := by
  induction l with
  | nil => cases hx
  | cons a t ih =>
      rw [makespan_cons]
      rcases List.mem_cons.mp hx with h | h
      · exact h ▸ le_max_left _ _
      · exact le_max_of_le_right (ih h)

theorem makespan_le {l : List ℚ} {c : ℚ} (hc : 0 ≤ c)
    (h : ∀ x ∈ l, x ≤ c) : makespan l ≤ c := by
  induction l with
  | nil => simpa [makespan_nil] using hc
  | cons a t ih =>
      rw [makespan_cons]
      exact max_le (h a (List.mem_cons_self a t))
        (ih (fun x hx => h x (List.mem_cons_of_mem a hx)))

theorem makespan_set_max {l : List ℚ} {i : ℕ} {v : ℚ} (hi : i < l.length)
    (hv : l.getD i 0 ≤ v) :
    makespan (l.set i v) = max (makespan l) v := by
  induction l generalizing i with
  | nil => simp at hi
  | cons a t ih =>
      cases i with
      | zero =>
          simp only [List.set_cons_zero, makespan_cons]
          simp only [List.getD_cons_zero] at hv
          rw [max_comm (max a (makespan t)) v, ← max_assoc, max_eq_left hv]
      | succ j =>
          simp only [List.set_cons_succ, makespan_cons]
          simp only [List.getD_cons_succ] at hv
          simp only [List.length_cons, Nat.succ_lt_succ_iff] at hi
          rw [ih hi hv, ← max_assoc]

theorem makespan_le_makespan {l₁ l₂ : List ℚ} (hlen : l₁.length = l₂.length)
    (h : ∀ w, l₁.getD w 0 ≤ l₂.getD w 0) :
    makespan l₁ ≤ makespan l₂ := by
  apply makespan_le (makespan_nonneg l₂)
  intro x hx
  obtain ⟨w, hw, hval⟩ := List.getElem_of_mem hx
  have hgd : l₁.getD w 0 = x := by rw [List.getD_eq_getElem _ _ hw, hval]
  have hw2 : w < l₂.length := hlen ▸ hw
  calc x = l₁.getD w 0 := hgd.symm
    _ ≤ l₂.getD w 0 := h w
    _ ≤ makespan l₂ := le_makespan (by
        rw [List.getD_eq_getElem _ _ hw2]; exact List.getElem_mem _)

/-! ## Helper lemmas on `number_of_stops` (the transition counter of the
tour cost model) -/

/-- Predicate for a counted transition at position `k` of a stop list:
`k` is not the first stop and the coordinates at `k-1` and `k` differ. -/
def isTransition (stops : List Stop) (k : ℕ) : Prop :=
  0 < k ∧ ¬ sameCoords (stops.getD (k - 1) default) (stops.getD k default)

instance (stops : List Stop) : DecidablePred (isTransition stops) := by
  intro k
  unfold isTransition
  infer_instance

theorem card_filter_range_succ_shift (P : ℕ → Prop) [DecidablePred P]
    (hP0 : ¬ P 0) (n : ℕ) :
    ((Finset.range (n + 1)).filter P).card =
      ((Finset.range n).filter (fun j => P (j + 1))).card := by
  have himg : (Finset.range (n + 1)).filter P =
      ((Finset.range n).filter (fun j => P (j + 1))).image (· + 1) := by
    ext k
    simp only [Finset.mem_filter, Finset.mem_range, Finset.mem_image]
    constructor
    · rintro ⟨hk, hPk⟩
      rcases k with _ | j
      · exact absurd hPk hP0
      · exact ⟨j, ⟨by omega, hPk⟩, rfl⟩
    · rintro ⟨j, ⟨hj, hPj⟩, rfl⟩
      exact ⟨by omega, hPj⟩
  rw [himg, Finset.card_image_of_injective _ (fun a b h => by omega)]

theorem number_of_stops_eq_card (l : List Stop) :
    number_of_stops l =
      ((Finset.range l.length).filter (isTransition l)).card := by
  induction l with
  | nil => simp [number_of_stops]
  | cons a t ih =>
      cases t with
      | nil => simp [number_of_stops, isTransition, Finset.filter_singleton]
      | cons b t2 =>
          have hP0 : ¬ isTransition (a :: b :: t2) 0 := by
            simp [isTransition]
          rw [show (a :: b :: t2).length = (b :: t2).length + 1 from rfl,
            card_filter_range_succ_shift _ hP0]
          by_cases hs : sameCoords a b
          · have hcong : ∀ j ∈ Finset.range (b :: t2).length,
                isTransition (a :: b :: t2) (j + 1) ↔
                  isTransition (b :: t2) j := by
              intro j hj
              cases j with
              | zero => simp [isTransition, hs]
              | succ m =>
                  simp only [isTransition, Nat.succ_sub_one,
                    List.getD_cons_succ, Nat.zero_lt_succ, true_and]
            rw [Finset.filter_congr hcong]
            simp [number_of_stops, hs, ih]
          · have hset : (Finset.range (b :: t2).length).filter
                  (fun j => isTransition (a :: b :: t2) (j + 1)) =
                insert 0 ((Finset.range (b :: t2).length).filter
                  (isTransition (b :: t2))) := by
              ext j
              simp only [Finset.mem_filter, Finset.mem_range,
                Finset.mem_insert]
              cases j with
              | zero =>
                  simp [isTransition, hs]
              | succ m =>
                  simp only [isTransition, Nat.succ_sub_one,
                    List.getD_cons_succ, Nat.zero_lt_succ, true_and,
                    Nat.succ_ne_zero, false_or]
            rw [hset, Finset.card_insert_of_not_mem (by simp [isTransition])]
            simp [number_of_stops, hs, ih, Nat.add_comm]


/-! ## Claim C7: the tour cost model duration formula -/

/-- C7: for every route list and every route position, the duration
computed by `compute_jobs_durations` equals the route distance divided by
the drone speed plus the number of distinct consecutive stop transitions
times the dwell time, where the transition from stop `k-1` to stop `k` is
counted exactly when their coordinates differ and the first stop is never
counted as a transition. -/
theorem tour_duration_formula (routes : List Route) (i : ℕ)
    (hi : i < routes.length) :
    (compute_jobs_durations routes).getD i 0 =
      (routes.getD i default).distance / speed_m_s +
      (((Finset.range (routes.getD i default).stops.length).filter
          (isTransition (routes.getD i default).stops)).card : ℚ) *
        stop_time_sec := by
  unfold compute_jobs_durations
  rw [List.getD_eq_getElem _ _ (by simpa using hi), List.getElem_map,
    ← number_of_stops_eq_card, List.getD_eq_getElem _ _ hi]

/-- Witness for C7 at the concrete four-stop example tour. -/
theorem tour_duration_formula_witness :
    (compute_jobs_durations [exampleTour]).getD 0 0 =
      (([exampleTour] : List Route).getD 0 default).distance / speed_m_s +
      (((Finset.range
            (([exampleTour] : List Route).getD 0 default).stops.length).filter
          (isTransition (([exampleTour] : List Route).getD 0 default).stops)).card : ℚ) *
        stop_time_sec :=
  tour_duration_formula [exampleTour] 0 (by decide)

/-! ## Claim C8: the four-stop scenario -/

/-- C8 counterexample: on the four-stop tour of the scenario (stops 2 and 3
share coordinates, all other consecutive stops differ, distance 1000
meters) the cost model does not count 3 distinct transitions. -/
theorem four_stop_tour_not_three_transitions :
    exampleTour.stops.length = 4 ∧
    sameCoords (exampleTour.stops.getD 1 default)
      (exampleTour.stops.getD 2 default) ∧
    ¬ sameCoords (exampleTour.stops.getD 0 default)
      (exampleTour.stops.getD 1 default) ∧
    ¬ sameCoords (exampleTour.stops.getD 2 default)
      (exampleTour.stops.getD 3 default) ∧
    number_of_stops exampleTour.stops ≠ 3 := by decide

/-- C8 amended: on that tour the cost model counts exactly 2 distinct
transitions, and the duration is the distance over the speed plus 2 dwell
periods. -/
theorem four_stop_tour_two_transitions :
    number_of_stops exampleTour.stops = 2 ∧
    compute_jobs_durations [exampleTour] =
      [exampleTour.distance / speed_m_s + 2 * stop_time_sec] := by decide

/-! ## Claim C9: the distance cache -/

/-- C9: calling the caching wrapper twice in succession with the same point
set (first call from the empty cache state) returns identical distance
matrices, and `compute_distance_matrix` runs exactly once, on the first
call; the same holds for the data models of two successive
`create_data_model` calls. -/
theorem distance_cache_idempotent (geodesic : Point → Point → ℚ)
    (all_points : List Point) (cap : ℕ) :
    (getOrCompute geodesic all_points none).1 =
      (getOrCompute geodesic all_points
        (getOrCompute geodesic all_points none).2.1).1 ∧
    (getOrCompute geodesic all_points none).2.2 = 1 ∧
    (getOrCompute geodesic all_points
      (getOrCompute geodesic all_points none).2.1).2.2 = 0 ∧
    (create_data_model geodesic all_points cap none).1 =
      (create_data_model geodesic all_points cap
        (create_data_model geodesic all_points cap none).2.1).1 ∧
    (create_data_model geodesic all_points cap none).2.2 = 1 ∧
    (create_data_model geodesic all_points cap
      (create_data_model geodesic all_points cap none).2.1).2.2 = 0 :=
  ⟨rfl, rfl, rfl, rfl, rfl, rfl⟩

/-! ## Claim C6: the distance matrix of `compute_distance_matrix` -/

theorem coordsDiffer_iff (p q : Point) :
    coordsDiffer p q ↔ ¬ (p.lat = q.lat ∧ p.lon = q.lon) := by
  unfold coordsDiffer
  rw [abs_pos, abs_pos, sub_ne_zero, sub_ne_zero]
  tauto

theorem compute_distance_matrix_entry (geodesic : Point → Point → ℚ)
    (all_points : List Point) {i j : ℕ} (hi : i < all_points.length)
    (hj : j < all_points.length) :
    ((compute_distance_matrix geodesic all_points).getD i []).getD j 0 =
      if i < j then
        pairDist geodesic (all_points.getD i default) (all_points.getD j default)
      else if j < i then
        pairDist geodesic (all_points.getD j default) (all_points.getD i default)
      else 0 := by
  have h1 : (compute_distance_matrix geodesic all_points).getD i [] =
      (List.range all_points.length).map (fun y =>
        if i < y then
          pairDist geodesic (all_points.getD i default)
            (all_points.getD y default)
        else if y < i then
          pairDist geodesic (all_points.getD y default)
            (all_points.getD i default)
        else 0) := by
    unfold compute_distance_matrix
    rw [List.getD_eq_getElem _ _ (by simpa using hi), List.getElem_map,
      List.getElem_range]
  rw [h1, List.getD_eq_getElem _ _ (by simpa using hj), List.getElem_map,
    List.getElem_range]

/-- C6: for every point list and every symmetric geodesic distance function
positive on coordinate-distinct pairs, the matrix of
`compute_distance_matrix` is square, symmetric, has zero diagonal, and an
off-diagonal entry is 0 exactly when the two points share coordinates and
is otherwise the geodesic distance between the two points. -/
theorem distance_matrix_properties (geodesic : Point → Point → ℚ)
    (hsym : ∀ p q, geodesic p q = geodesic q p)
    (hpos : ∀ p q, ¬ (p.lat = q.lat ∧ p.lon = q.lon) → 0 < geodesic p q)
    (all_points : List Point) :
    (compute_distance_matrix geodesic all_points).length =
        all_points.length ∧
    (∀ row ∈ compute_distance_matrix geodesic all_points,
        row.length = all_points.length) ∧
    (∀ i j, i < all_points.length → j < all_points.length →
      ((compute_distance_matrix geodesic all_points).getD i []).getD j 0 =
        ((compute_distance_matrix geodesic all_points).getD j []).getD i 0) ∧
    (∀ i, i < all_points.length →
      ((compute_distance_matrix geodesic all_points).getD i []).getD i 0 = 0) ∧
    (∀ i j, i < all_points.length → j < all_points.length → i ≠ j →
      (((compute_distance_matrix geodesic all_points).getD i []).getD j 0 = 0 ↔
        ((all_points.getD i default).lat = (all_points.getD j default).lat ∧
         (all_points.getD i default).lon = (all_points.getD j default).lon)) ∧
      (¬ ((all_points.getD i default).lat = (all_points.getD j default).lat ∧
          (all_points.getD i default).lon = (all_points.getD j default).lon) →
        ((compute_distance_matrix geodesic all_points).getD i []).getD j 0 =
          geodesic (all_points.getD i default) (all_points.getD j default))) := by
  refine ⟨by simp [compute_distance_matrix], ?_, ?_, ?_, ?_⟩
  · intro row hrow
    unfold compute_distance_matrix at hrow
    obtain ⟨x, hx, rfl⟩ := List.mem_map.mp hrow
    simp
  · intro i j hi hj
    rw [compute_distance_matrix_entry geodesic all_points hi hj,
      compute_distance_matrix_entry geodesic all_points hj hi]
    rcases lt_trichotomy i j with h | h | h
    · simp [h, not_lt_of_gt h]
    · simp [h]
    · simp [h, not_lt_of_gt h]
  · intro i hi
    rw [compute_distance_matrix_entry geodesic all_points hi hi]
    simp
  · intro i j hi hj hne
    have hpd : ∀ p q : Point,
        (pairDist geodesic p q = 0 ↔ (p.lat = q.lat ∧ p.lon = q.lon)) := by
      intro p q
      unfold pairDist
      by_cases hd : coordsDiffer p q
      · rw [if_pos hd]
        have := hpos p q ((coordsDiffer_iff p q).mp hd)
        constructor
        · intro h0; exact absurd h0 (ne_of_gt this)
        · intro hsame; exact absurd ((coordsDiffer_iff p q).mp hd) (by tauto)
      · rw [if_neg hd]
        have hsame := not_not.mp (fun h => hd ((coordsDiffer_iff p q).mpr h))
        exact ⟨fun _ => hsame, fun _ => rfl⟩
    rw [compute_distance_matrix_entry geodesic all_points hi hj]
    rcases lt_trichotomy i j with h | h | h
    · rw [if_pos h]
      refine ⟨hpd _ _, fun hdiff => ?_⟩
      unfold pairDist
      rw [if_pos ((coordsDiffer_iff _ _).mpr hdiff)]
    · exact absurd h hne
    · rw [if_neg (not_lt_of_gt h), if_pos h]
      constructor
      · rw [hpd _ _]
        tauto
      · intro hdiff
        unfold pairDist
        rw [if_pos ((coordsDiffer_iff _ _).mpr (by tauto)), hsym]

/-- Witness for C6: the matrix of the taxicab distance on two concrete
points has zero diagonal and is symmetric at the off-diagonal pair. -/
theorem distance_matrix_properties_witness :
    ((compute_distance_matrix
        (fun p q => |p.lat - q.lat| + |p.lon - q.lon|)
        [⟨0, 0, 0⟩, ⟨1, 2, 0⟩]).getD 0 []).getD 0 0 = 0 ∧
    ((compute_distance_matrix
        (fun p q => |p.lat - q.lat| + |p.lon - q.lon|)
        [⟨0, 0, 0⟩, ⟨1, 2, 0⟩]).getD 0 []).getD 1 0 =
      ((compute_distance_matrix
        (fun p q => |p.lat - q.lat| + |p.lon - q.lon|)
        [⟨0, 0, 0⟩, ⟨1, 2, 0⟩]).getD 1 []).getD 0 0 := by
  have h := distance_matrix_properties
    (fun p q => |p.lat - q.lat| + |p.lon - q.lon|)
    (fun p q =>
      show |p.lat - q.lat| + |p.lon - q.lon| =
          |q.lat - p.lat| + |q.lon - p.lon| by
        rw [abs_sub_comm p.lat q.lat, abs_sub_comm p.lon q.lon])
    (fun p q hne => by
      rcases not_and_or.mp hne with h1 | h1
      · exact add_pos_of_pos_of_nonneg
          (abs_pos.mpr (sub_ne_zero.mpr h1)) (abs_nonneg _)
      · exact add_pos_of_nonneg_of_pos
          (abs_nonneg _) (abs_pos.mpr (sub_ne_zero.mpr h1)))
    [⟨0, 0, 0⟩, ⟨1, 2, 0⟩]
  exact ⟨h.2.2.2.1 0 (by decide), h.2.2.1 0 1 (by decide) (by decide)⟩

/-! ## Claim C4: the demand splitter on one over-capacity point -/

theorem near_split_mem {D k x : ℕ} (hx : x ∈ near_split D k) :
    x = D / k ∨ (x = D / k + 1 ∧ 0 < D % k) := by
  unfold near_split at hx
  rcases List.mem_append.mp hx with h | h
  · obtain ⟨hn, hv⟩ := List.mem_replicate.mp h
    exact Or.inr ⟨hv, Nat.pos_of_ne_zero hn⟩
  · exact Or.inl (List.eq_of_mem_replicate h)

theorem near_split_length (D k : ℕ) (hk : 0 < k) :
    (near_split D k).length = k := by
  unfold near_split
  have := Nat.mod_lt D hk
  simp only [List.length_append, List.length_replicate]
  omega

theorem near_split_sum (D k : ℕ) (hk : 0 < k) :
    (near_split D k).sum = D := by
  unfold near_split
  have h1 : k * (D / k) + D % k = D := Nat.div_add_mod D k
  have h2 : D % k ≤ k := le_of_lt (Nat.mod_lt D hk)
  have h3 : D % k * (D / k) ≤ k * (D / k) :=
    Nat.mul_le_mul_right _ h2
  rw [List.sum_append, List.sum_replicate, List.sum_replicate,
    smul_eq_mul, smul_eq_mul, Nat.mul_add, Nat.mul_one, Nat.sub_mul]
  omega

theorem near_split_sorted (D k : ℕ) :
    (near_split D k).Sorted (fun a b => b ≤ a) := by
  unfold near_split
  rw [List.Sorted, List.pairwise_append]
  refine ⟨?_, ?_, ?_⟩
  · exact List.pairwise_replicate.mpr (Or.inr le_rfl)
  · exact List.pairwise_replicate.mpr (Or.inr le_rfl)
  · intro x hx y hy
    rw [List.eq_of_mem_replicate hx, List.eq_of_mem_replicate hy]
    exact Nat.le_succ _

theorem numBins_eq (D C : ℕ) (hD : 0 < D) (hC : 0 < C) :
    numBins D C = (D - 1) / C + 1 := by
  unfold numBins
  have h : D + C - 1 = (D - 1) + C := by omega
  rw [h, Nat.add_div_right _ hC]

theorem numBins_pos (D C : ℕ) (hD : 0 < D) (hC : 0 < C) :
    0 < numBins D C := by
  rw [numBins_eq D C hD hC]
  exact Nat.succ_pos _

theorem le_numBins_mul (D C : ℕ) (hD : 0 < D) (hC : 0 < C) :
    D ≤ numBins D C * C := by
  rw [numBins_eq D C hD hC]
  have h1 : C * ((D - 1) / C) + (D - 1) % C = D - 1 := Nat.div_add_mod _ C
  have h2 : (D - 1) % C < C := Nat.mod_lt _ hC
  rw [Nat.add_mul, Nat.one_mul, Nat.mul_comm]
  omega

theorem numBins_pred_mul_lt (D C : ℕ) (hD : 0 < D) (hC : 0 < C) :
    (numBins D C - 1) * C < D := by
  rw [numBins_eq D C hD hC]
  have h1 : (D - 1) / C * C ≤ D - 1 := Nat.div_mul_le_self _ _
  simp only [Nat.add_sub_cancel]
  omega

theorem near_split_part_le_cap (D C : ℕ) (hD : 0 < D) (hC : 0 < C) :
    ∀ x ∈ near_split D (numBins D C), x ≤ C := by
  intro x hx
  set k := numBins D C with hkdef
  have hk : 0 < k := numBins_pos D C hD hC
  have hDk : D ≤ k * C := le_numBins_mul D C hD hC
  have hq : D / k ≤ C := by
    have h1 : D / k ≤ k * C / k := Nat.div_le_div_right hDk
    rwa [Nat.mul_div_cancel_left C hk] at h1
  rcases near_split_mem hx with h | ⟨h, hr⟩
  · exact h ▸ hq
  · subst h
    by_contra hgt
    have hqC : D / k = C := by omega
    have h1 : k * (D / k) + D % k = D := Nat.div_add_mod D k
    have h2 : k * (D / k) = k * C := by rw [hqC]
    omega

/-- C4: for a point of positive demand `D` and a cap `C ≥ 1`, the splitter
replaces the point by exactly `k = ceil(D / C)` points at the same
coordinates (with the original index attached), whose demands sum to `D`,
each demand at most `C`, any two demands within 1 of each other, larger
parts emitted first. The first two conjuncts state that `numBins` is the
exact ceiling of `D / C`. -/
theorem demand_splitter_point (p : Point) (i cap : ℕ)
    (hD : 0 < p.population) (hC : 1 ≤ cap) :
    p.population ≤ numBins p.population cap * cap ∧
    (numBins p.population cap - 1) * cap < p.population ∧
    (splitOne p i cap).length = numBins p.population cap ∧
    (∀ q ∈ splitOne p i cap, q.1.lat = p.lat ∧ q.1.lon = p.lon ∧ q.2 = i) ∧
    ((splitOne p i cap).map (fun q => q.1.population)).sum = p.population ∧
    (∀ q ∈ splitOne p i cap, q.1.population ≤ cap) ∧
    (∀ a ∈ (splitOne p i cap).map (fun q => q.1.population),
      ∀ b ∈ (splitOne p i cap).map (fun q => q.1.population), a ≤ b + 1) ∧
    ((splitOne p i cap).map (fun q => q.1.population)).Sorted
      (fun a b => b ≤ a) := by
  have hC0 : 0 < cap := hC
  have hk : 0 < numBins p.population cap := numBins_pos _ _ hD hC0
  have hone : splitOne p i cap =
      (near_split p.population (numBins p.population cap)).map
        (fun part => ({ p with population := part }, i)) := by
    unfold splitOne
    rw [if_pos hD]
  have hmapmap : (splitOne p i cap).map (fun q => q.1.population) =
      near_split p.population (numBins p.population cap) := by
    rw [hone, List.map_map]
    have hcomp : ((fun q : Point × ℕ => q.1.population) ∘
        (fun part => (({ p with population := part } : Point), i))) = id := rfl
    rw [hcomp, List.map_id]
  refine ⟨le_numBins_mul _ _ hD hC0, numBins_pred_mul_lt _ _ hD hC0, ?_, ?_, ?_, ?_, ?_, ?_⟩
  · rw [hone, List.length_map, near_split_length _ _ hk]
  · intro q hq
    rw [hone] at hq
    obtain ⟨x, hx, rfl⟩ := List.mem_map.mp hq
    exact ⟨rfl, rfl, rfl⟩
  · rw [hmapmap, near_split_sum _ _ hk]
  · intro q hq
    rw [hone] at hq
    obtain ⟨x, hx, rfl⟩ := List.mem_map.mp hq
    exact near_split_part_le_cap _ _ hD hC0 x hx
  · intro a ha b hb
    rw [hmapmap] at ha hb
    rcases near_split_mem ha with h | ⟨h, -⟩ <;>
      rcases near_split_mem hb with h2 | ⟨h2, -⟩ <;> omega
  · rw [hmapmap]
    exact near_split_sorted _ _

/-- Witness for C4: the scenario point of demand 45 with cap 20 is split
into exactly `numBins 45 20` parts summing to 45. -/
theorem demand_splitter_point_witness :
    (splitOne ⟨1, 2, 45⟩ 0 20).length = numBins 45 20 ∧
    ((splitOne ⟨1, 2, 45⟩ 0 20).map (fun q => q.1.population)).sum = 45 := by
  have h := demand_splitter_point ⟨1, 2, 45⟩ 0 20 (by decide) (by decide)
  exact ⟨h.2.2.1, h.2.2.2.2.1⟩

/-! ## Claim C5: pass-through of zero-demand points and the expanded
matrix -/

theorem splitOne_origin (p : Point) (i cap : ℕ) :
    ∀ q ∈ splitOne p i cap, q.2 = i := by
  intro q hq
  unfold splitOne at hq
  by_cases hp : 0 < p.population
  · rw [if_pos hp] at hq
    obtain ⟨x, hx, rfl⟩ := List.mem_map.mp hq
    rfl
  · rw [if_neg hp] at hq
    rw [List.mem_singleton.mp hq]

theorem filter_flatMap_blocks (g : ℕ → List (Point × ℕ))
    (hg : ∀ j, ∀ q ∈ g j, q.2 = j) (i : ℕ) :
    ∀ l : List ℕ, l.Nodup → i ∈ l →
      (l.flatMap g).filter (fun q => decide (q.2 = i)) = g i := by
  intro l
  induction l with
  | nil => intro _ h; cases h
  | cons j t ih =>
      intro hnd hmem
      rw [List.flatMap_cons, List.filter_append]
      by_cases hj : j = i
      · subst hj
        have h1 : (g j).filter (fun q => decide (q.2 = j)) = g j :=
          List.filter_eq_self.mpr (fun q hq => by simp [hg j q hq])
        have h2 : (t.flatMap g).filter (fun q => decide (q.2 = j)) = [] := by
          rw [List.filter_eq_nil_iff]
          intro q hq
          obtain ⟨j2, hj2, hqj2⟩ := List.mem_flatMap.mp hq
          have hq2 := hg j2 q hqj2
          have hne : j2 ≠ j := fun h => (List.nodup_cons.mp hnd).1 (h ▸ hj2)
          simp [hq2, hne]
        rw [h1, h2, List.append_nil]
      · have h1 : (g j).filter (fun q => decide (q.2 = i)) = [] := by
          rw [List.filter_eq_nil_iff]
          intro q hq
          simp [hg j q hq, hj]
        rw [h1, List.nil_append]
        rcases List.mem_cons.mp hmem with h | h
        · exact absurd h.symm hj
        · exact ih (List.nodup_cons.mp hnd).2 h

theorem filter_splitWithOrigins (orig : List Point) (cap i : ℕ)
    (hi : i < orig.length) :
    (splitWithOrigins orig cap).filter (fun q => decide (q.2 = i)) =
      splitOne (orig.getD i default) i cap := by
  unfold splitWithOrigins
  exact filter_flatMap_blocks _ (fun j => splitOne_origin _ j cap) i
    (List.range orig.length) (List.nodup_range _)
    (List.mem_range.mpr hi)

theorem split_matrix_entry (orig : List Point) (M : List (List ℚ)) (cap : ℕ)
    {x y : ℕ} (hx : x < (splitWithOrigins orig cap).length)
    (hy : y < (splitWithOrigins orig cap).length) :
    ((split_dense_points orig M cap).2.getD x []).getD y 0 =
      (M.getD ((splitWithOrigins orig cap).getD x default).2 []).getD
        ((splitWithOrigins orig cap).getD y default).2 0 := by
  have h1 : (split_dense_points orig M cap).2.getD x [] =
      (splitWithOrigins orig cap).map (fun b =>
        (M.getD ((splitWithOrigins orig cap).getD x default).2 []).getD
          b.2 0) := by
    unfold split_dense_points
    rw [List.getD_eq_getElem _ _ (by simpa using hx), List.getElem_map,
      List.getD_eq_getElem _ _ hx]
  rw [h1, List.getD_eq_getElem _ _ (by simpa using hy), List.getElem_map,
    List.getD_eq_getElem _ _ hy]

/-- C5: every zero-demand point (the depot included) passes through the
splitter unchanged, as exactly one output pair carrying its original
index; every entry of the expanded matrix equals the original entry at the
origin indices of the two output points; and when the original matrix has
a zero diagonal, co-located split siblings of one origin are at distance 0
from each other. -/
theorem demand_splitter_passthrough_and_matrix (orig : List Point)
    (M : List (List ℚ)) (cap : ℕ) :
    (∀ i, i < orig.length → (orig.getD i default).population = 0 →
      (splitWithOrigins orig cap).filter (fun q => decide (q.2 = i)) =
        [(orig.getD i default, i)]) ∧
    (∀ x y, x < (splitWithOrigins orig cap).length →
      y < (splitWithOrigins orig cap).length →
      ((split_dense_points orig M cap).2.getD x []).getD y 0 =
        (M.getD ((splitWithOrigins orig cap).getD x default).2 []).getD
          ((splitWithOrigins orig cap).getD y default).2 0) ∧
    ((∀ j, (M.getD j []).getD j 0 = 0) →
      ∀ x y, x < (splitWithOrigins orig cap).length →
        y < (splitWithOrigins orig cap).length →
        ((splitWithOrigins orig cap).getD x default).2 =
          ((splitWithOrigins orig cap).getD y default).2 →
        ((split_dense_points orig M cap).2.getD x []).getD y 0 = 0) := by
  refine ⟨?_, ?_, ?_⟩
  · intro i hi hzero
    rw [filter_splitWithOrigins orig cap i hi]
    unfold splitOne
    rw [if_neg (by omega)]
  · intro x y hx hy
    exact split_matrix_entry orig M cap hx hy
  · intro hdiag x y hx hy hsame
    rw [split_matrix_entry orig M cap hx hy, hsame]
    exact hdiag _

/-- Witness for C5 on a concrete instance: a depot and one dense point
with a 2-by-2 matrix; the depot passes through and a sibling pair is at
distance 0. -/
theorem demand_splitter_passthrough_and_matrix_witness :
    (splitWithOrigins [⟨16, 58, 0⟩, ⟨1, 2, 3⟩] 2).filter
        (fun q => decide (q.2 = 0)) = [(⟨16, 58, 0⟩, 0)] ∧
    ((split_dense_points [⟨16, 58, 0⟩, ⟨1, 2, 3⟩] [[0, 7], [7, 0]] 2).2.getD
        1 []).getD 2 0 = 0 := by
  have h := demand_splitter_passthrough_and_matrix
    [⟨16, 58, 0⟩, ⟨1, 2, 3⟩] [[0, 7], [7, 0]] 2
  refine ⟨h.1 0 (by decide) (by decide), ?_⟩
  refine h.2.2 ?_ 1 2 (by decide) (by decide) (by decide)
  intro j
  match j with
  | 0 => decide
  | 1 => decide
  | n + 2 => simp

/-! ## Claim C10: cap validation of the demand splitter -/

theorem splitOneZ_ok_of_cap_pos (p : ZPoint) (i : ℕ) (cap : ℤ)
    (hcap : 1 ≤ cap) : ∃ e, splitOneZ p i cap = .ok e := by
  unfold splitOneZ
  by_cases hp : 0 < p.population
  · rw [if_pos hp]
    have hc0 : cap ≠ 0 := by omega
    have hceil : ceilDivZ p.population cap =
        .ok ⌈(p.population : ℚ) / (cap : ℚ)⌉ := by
      unfold ceilDivZ
      rw [if_neg hc0]
    have hkpos : 0 < ⌈(p.population : ℚ) / (cap : ℚ)⌉ := by
      rw [Int.ceil_pos]
      apply div_pos
      · exact_mod_cast hp
      · exact_mod_cast lt_of_lt_of_le one_pos hcap
    have hnear : ∃ parts, near_splitZ p.population
        ⌈(p.population : ℚ) / (cap : ℚ)⌉ = .ok parts := by
      unfold near_splitZ
      rw [if_neg (by omega)]
      exact ⟨_, rfl⟩
    obtain ⟨parts, hparts⟩ := hnear
    refine ⟨parts.map (fun part => (({ p with population := part } : ZPoint), i)), ?_⟩
    rw [hceil]
    show (near_splitZ p.population ⌈(p.population : ℚ) / (cap : ℚ)⌉ >>=
        fun parts => pure (parts.map
          (fun part => (({ p with population := part } : ZPoint), i)))) = _
    rw [hparts]
    rfl
  · rw [if_neg hp]
    exact ⟨[(p, i)], rfl⟩

theorem splitOneZ_error_of_cap_zero (p : ZPoint) (i : ℕ)
    (hp : 0 < p.population) : splitOneZ p i 0 = .error .zeroDivision := by
  unfold splitOneZ
  rw [if_pos hp]
  rfl

theorem foldlM_blocks_ok (orig : List ZPoint) (cap : ℤ) (l : List ℕ)
    (h : ∀ i ∈ l, ∃ e, splitOneZ (orig.getD i default) i cap = .ok e) :
    ∀ acc : List (ZPoint × ℕ), ∃ res,
      l.foldlM (fun acc i => do
        let e ← splitOneZ (orig.getD i default) i cap
        pure (acc ++ e)) acc = .ok res := by
  induction l with
  | nil => intro acc; exact ⟨acc, rfl⟩
  | cons j t ih =>
      intro acc
      obtain ⟨e, he⟩ := h j (List.mem_cons_self j t)
      obtain ⟨res, hres⟩ :=
        ih (fun i hi => h i (List.mem_cons_of_mem j hi)) (acc ++ e)
      refine ⟨res, ?_⟩
      rw [List.foldlM_cons, he]
      exact hres

theorem foldlM_blocks_error (orig : List ZPoint) (l : List ℕ)
    (h : ∃ i ∈ l, 0 < (orig.getD i default).population) :
    ∀ acc : List (ZPoint × ℕ),
      l.foldlM (fun acc i => do
        let e ← splitOneZ (orig.getD i default) i 0
        pure (acc ++ e)) acc = .error .zeroDivision := by
  induction l with
  | nil => obtain ⟨i, hi, -⟩ := h; cases hi
  | cons j t ih =>
      intro acc
      by_cases hj : 0 < (orig.getD j default).population
      · rw [List.foldlM_cons, splitOneZ_error_of_cap_zero _ _ hj]
        rfl
      · have hosplit : splitOneZ (orig.getD j default) j 0 =
            .ok [(orig.getD j default, j)] := by
          unfold splitOneZ
          rw [if_neg hj]
          rfl
        rw [List.foldlM_cons, hosplit]
        have hmem : ∃ i ∈ t, 0 < (orig.getD i default).population := by
          obtain ⟨i, hi, hpos⟩ := h
          rcases List.mem_cons.mp hi with rfl | hit
          · exact absurd hpos hj
          · exact ⟨i, hit, hpos⟩
        exact ih hmem _

/-- C10 counterexample: with cap = 0 (hence cap below 1) on a zero-demand
point list the splitter succeeds instead of failing, and with cap = -1 on
a point of demand 1 it also succeeds, silently emitting no output point. -/
theorem cap_below_one_no_failure :
    split_dense_pointsZ [⟨16, 58, 0⟩] [[5]] 0 =
      .ok ([⟨16, 58, 0⟩], [[5]]) ∧
    split_dense_pointsZ [⟨1, 2, 1⟩] [[5]] (-1) = .ok ([], []) := ⟨rfl, rfl⟩

/-- C10 amended: the splitter performs no cap validation and has no
InvalidConfiguration error at all (`SplitError` has the single constructor
`zeroDivision`): with cap = 0 it raises the ZeroDivisionError of the
Python division as soon as some point has positive demand, and for every
cap at least 1 it does not fail on any input. -/
theorem cap_validation_amended :
    (∀ (orig : List ZPoint) (M : List (List ℚ)),
      (∃ i, i < orig.length ∧ 0 < (orig.getD i default).population) →
      split_dense_pointsZ orig M 0 = .error .zeroDivision) ∧
    (∀ (orig : List ZPoint) (M : List (List ℚ)) (cap : ℤ), 1 ≤ cap →
      ∃ r, split_dense_pointsZ orig M cap = .ok r) := by
  constructor
  · intro orig M h
    obtain ⟨i, hi, hpos⟩ := h
    unfold split_dense_pointsZ
    rw [foldlM_blocks_error orig (List.range orig.length)
      ⟨i, List.mem_range.mpr hi, hpos⟩ []]
    rfl
  · intro orig M cap hcap
    obtain ⟨pts, hpts⟩ := foldlM_blocks_ok orig cap (List.range orig.length)
      (fun i _ => splitOneZ_ok_of_cap_pos (orig.getD i default) i cap hcap) []
    refine ⟨(pts.map Prod.fst, pts.map (fun a => pts.map (fun b =>
      (M.getD a.2 []).getD b.2 0))), ?_⟩
    unfold split_dense_pointsZ
    rw [hpts]
    rfl

/-- Witness for C10 amended: cap = 0 fails with the division error on a
positive-demand point, and cap = 1 succeeds on the same input. -/
theorem cap_validation_amended_witness :
    split_dense_pointsZ [⟨1, 2, 3⟩] [[0]] 0 = .error .zeroDivision ∧
    ∃ r, split_dense_pointsZ [⟨1, 2, 3⟩] [[0]] 1 = .ok r :=
  ⟨cap_validation_amended.1 [⟨1, 2, 3⟩] [[0]] ⟨0, by decide, by decide⟩,
   cap_validation_amended.2 [⟨1, 2, 3⟩] [[0]] 1 (by decide)⟩

/-! ## Helper lemmas on `argmin` (the `np.argmin` worker chooser) -/

theorem argminAux_spec (xs : List ℚ) : ∀ (i best : ℕ) (bv : ℚ),
    (argminAux xs i best bv = best ∧ ∀ k, k < xs.length → bv ≤ xs.getD k 0) ∨
    (∃ k, k < xs.length ∧ argminAux xs i best bv = i + k ∧
      xs.getD k 0 < bv ∧
      (∀ k2, k2 < xs.length → xs.getD k 0 ≤ xs.getD k2 0) ∧
      (∀ k2, k2 < k → xs.getD k 0 < xs.getD k2 0)) := by
  induction xs with
  | nil =>
      intro i best bv
      left
      exact ⟨rfl, fun k hk => absurd hk (by simp)⟩
  | cons x t ih =>
      intro i best bv
      have hstep : argminAux (x :: t) i best bv =
          if x < bv then argminAux t (i + 1) i x
          else argminAux t (i + 1) best bv := rfl
      rw [hstep]
      by_cases hx : x < bv
      · rw [if_pos hx]
        right
        rcases ih (i + 1) i x with ⟨heq, hmin⟩ | ⟨k, hk, heq, hlt, hmin, hfirst⟩
        · refine ⟨0, by simp, by simpa using heq, by simpa using hx, ?_,
            fun k2 hk2 => absurd hk2 (by omega)⟩
          intro k2 hk2
          cases k2 with
          | zero => simp
          | succ m =>
              simp only [List.getD_cons_zero, List.getD_cons_succ]
              exact hmin m (by simpa using hk2)
        · refine ⟨k + 1, by simpa using hk, by rw [heq]; omega, ?_, ?_, ?_⟩
          · simp only [List.getD_cons_succ]
            exact lt_trans hlt hx
          · intro k2 hk2
            cases k2 with
            | zero =>
                simp only [List.getD_cons_succ, List.getD_cons_zero]
                exact le_of_lt hlt
            | succ m =>
                simp only [List.getD_cons_succ]
                exact hmin m (by simpa using hk2)
          · intro k2 hk2
            cases k2 with
            | zero =>
                simp only [List.getD_cons_succ, List.getD_cons_zero]
                exact hlt
            | succ m =>
                simp only [List.getD_cons_succ]
                exact hfirst m (by omega)
      · rw [if_neg hx]
        have hbx : bv ≤ x := le_of_not_lt hx
        rcases ih (i + 1) best bv with ⟨heq, hmin⟩ | ⟨k, hk, heq, hlt, hmin, hfirst⟩
        · left
          refine ⟨heq, ?_⟩
          intro k hk
          cases k with
          | zero => simpa using hbx
          | succ m =>
              simp only [List.getD_cons_succ]
              exact hmin m (by simpa using hk)
        · right
          refine ⟨k + 1, by simpa using hk, by rw [heq]; omega, ?_, ?_, ?_⟩
          · simp only [List.getD_cons_succ]
            exact hlt
          · intro k2 hk2
            cases k2 with
            | zero =>
                simp only [List.getD_cons_succ, List.getD_cons_zero]
                exact le_of_lt (lt_of_lt_of_le hlt hbx)
            | succ m =>
                simp only [List.getD_cons_succ]
                exact hmin m (by simpa using hk2)
          · intro k2 hk2
            cases k2 with
            | zero =>
                simp only [List.getD_cons_succ, List.getD_cons_zero]
                exact lt_of_lt_of_le hlt hbx
            | succ m =>
                simp only [List.getD_cons_succ]
                exact hfirst m (by omega)

theorem argmin_spec (l : List ℚ) (hl : l ≠ []) :
    argmin l < l.length ∧
    (∀ j, j < l.length → l.getD (argmin l) 0 ≤ l.getD j 0) ∧
    (∀ j, j < argmin l → l.getD (argmin l) 0 < l.getD j 0) := by
  match l with
  | [] => exact absurd rfl hl
  | x :: t =>
      have hstep : argmin (x :: t) = argminAux t 1 0 x := rfl
      rw [hstep]
      rcases argminAux_spec t 1 0 x with ⟨heq, hmin⟩ | ⟨k, hk, heq, hlt, hmin, hfirst⟩
      · rw [heq]
        refine ⟨by simp, ?_, fun j hj => absurd hj (by omega)⟩
        intro j hj
        cases j with
        | zero => simp
        | succ m =>
            simp only [List.getD_cons_zero, List.getD_cons_succ]
            exact hmin m (by simpa using hj)
      · rw [heq]
        have hidx : 1 + k = k + 1 := by omega
        rw [hidx]
        refine ⟨by simpa using hk, ?_, ?_⟩
        · intro j hj
          cases j with
          | zero =>
              simp only [List.getD_cons_succ, List.getD_cons_zero]
              exact le_of_lt hlt
          | succ m =>
              simp only [List.getD_cons_succ]
              exact hmin m (by simpa using hj)
        · intro j hj
          cases j with
          | zero =>
              simp only [List.getD_cons_succ, List.getD_cons_zero]
              exact hlt
          | succ m =>
              simp only [List.getD_cons_succ]
              exact hfirst m (by omega)

theorem argmin_lt_length {l : List ℚ} (hl : l ≠ []) : argmin l < l.length :=
  (argmin_spec l hl).1

theorem argmin_le {l : List ℚ} (hl : l ≠ []) {j : ℕ} (hj : j < l.length) :
    l.getD (argmin l) 0 ≤ l.getD j 0 :=
  (argmin_spec l hl).2.1 j hj

/-! ## Helper lemmas on `getD`, `set` and `replicate` -/

theorem getD_set_self {α : Type} (l : List α) (i : ℕ) (hi : i < l.length)
    (x d : α) : (l.set i x).getD i d = x := by
  rw [List.getD_eq_getElem _ _ (by simpa using hi)]
  exact List.getElem_set_self _

theorem getD_set_ne {α : Type} (l : List α) {i w : ℕ} (hne : w ≠ i)
    (x d : α) : (l.set i x).getD w d = l.getD w d := by
  rw [List.getD_eq_getElem?_getD, List.getD_eq_getElem?_getD,
    List.getElem?_set_ne (fun h => hne h.symm)]

theorem getD_replicate {α : Type} (n w : ℕ) (hw : w < n) (x d : α) :
    (List.replicate n x).getD w d = x := by
  rw [List.getD_eq_getElem _ _ (by simpa using hw)]
  exact List.getElem_replicate _ _

theorem sum_map_set {α : Type} (g : α → ℕ) (d : α) :
    ∀ (A : List α) (i : ℕ), i < A.length → ∀ x : α,
      ((A.set i x).map g).sum + g (A.getD i d) = (A.map g).sum + g x := by
  intro A
  induction A with
  | nil => intro i hi; simp at hi
  | cons a t ih =>
      intro i hi x
      cases i with
      | zero => simp [Nat.add_comm, Nat.add_left_comm]
      | succ m =>
          simp only [List.set_cons_succ, List.map_cons, List.sum_cons,
            List.getD_cons_succ]
          have := ih m (by simpa using hi) x
          omega

/-! ## Claim C2: structural invariants of the `lpt` assignment -/

theorem lptFold_invariant (W : ℕ) (hW : 1 ≤ W) (jobs : List ℚ) :
    ∀ (order : List ℕ) (A : List (List ℕ)) (B : List ℚ),
      A.length = W → B.length = W →
      (∀ w, w < W →
        B.getD w 0 = ((A.getD w []).map (fun i => jobs.getD i 0)).sum) →
      ((order.map (fun i => (i, jobs.getD i 0))).foldl
            lptStepFull (A, B)).1.length = W ∧
      ((order.map (fun i => (i, jobs.getD i 0))).foldl
            lptStepFull (A, B)).2.length = W ∧
      (∀ w, w < W →
        ((order.map (fun i => (i, jobs.getD i 0))).foldl
            lptStepFull (A, B)).2.getD w 0 =
          ((((order.map (fun i => (i, jobs.getD i 0))).foldl
              lptStepFull (A, B)).1.getD w []).map
            (fun i => jobs.getD i 0)).sum) ∧
      (∀ j : ℕ,
        (((order.map (fun i => (i, jobs.getD i 0))).foldl
            lptStepFull (A, B)).1.map (fun l => l.count j)).sum =
          (A.map (fun l => l.count j)).sum + order.count j) := by
  intro order
  induction order with
  | nil =>
      intro A B hA hB hload
      exact ⟨hA, hB, hload, fun j => by simp⟩
  | cons o rest ih =>
      intro A B hA hB hload
      have hBne : B ≠ [] := by
        intro h
        rw [h] at hB
        simp at hB
        omega
      have hidx : argmin B < W := hB ▸ argmin_lt_length hBne
      simp only [List.map_cons, List.foldl_cons]
      have hstep : lptStepFull (A, B) (o, jobs.getD o 0) =
          (A.set (argmin B) (A.getD (argmin B) [] ++ [o]),
           addAt B (argmin B) (jobs.getD o 0)) := rfl
      rw [hstep]
      have hA2 : (A.set (argmin B) (A.getD (argmin B) [] ++ [o])).length = W := by
        rw [List.length_set]; exact hA
      have hB2 : (addAt B (argmin B) (jobs.getD o 0)).length = W := by
        unfold addAt; rw [List.length_set]; exact hB
      have hload2 : ∀ w, w < W →
          (addAt B (argmin B) (jobs.getD o 0)).getD w 0 =
          (((A.set (argmin B) (A.getD (argmin B) [] ++ [o])).getD w []).map
            (fun i => jobs.getD i 0)).sum := by
        intro w hw
        by_cases hwi : w = argmin B
        · unfold addAt
          rw [hwi, getD_set_self B (argmin B) (hB ▸ hidx) _ 0,
            getD_set_self A (argmin B) (hA ▸ hidx) _ []]
          rw [List.map_append, List.sum_append, ← hload (argmin B) hidx]
          simp
        · unfold addAt
          rw [getD_set_ne B hwi _ 0, getD_set_ne A hwi _ []]
          exact hload w hw
      obtain ⟨r1, r2, r3, r4⟩ := ih _ _ hA2 hB2 hload2
      refine ⟨r1, r2, r3, ?_⟩
      intro j
      rw [r4 j]
      have hsms := sum_map_set (fun l => l.count j) [] A (argmin B)
        (hA ▸ hidx) (A.getD (argmin B) [] ++ [o])
      rw [List.count_append] at hsms
      have hcnt : (o :: rest).count j = rest.count j +
          if o = j then 1 else 0 := by
        rw [List.count_cons]
        simp [beq_iff_eq]
      have hsingle : List.count j [o] = if o = j then 1 else 0 := by
        simp [List.count_singleton, List.count_cons, beq_iff_eq]
      rw [hsingle] at hsms
      rw [hcnt]
      omega

/-- C2: for every worker count `W` of at least 1 and every job list
(duplicates, zeros and `W` exceeding the job count included), the `lpt`
assignment has exactly `W` workers, every valid job index appears in
exactly one worker list and exactly once there (the per-worker occurrence
counts sum to 1), no invalid index appears, every reported load is the
sum of the durations of the jobs assigned to that worker, and a worker
with no job has load 0. -/
theorem lpt_assignment_invariants (W : ℕ) (hW : 1 ≤ W) (jobs : List ℚ) :
    (lpt W jobs).assignment.length = W ∧
    (lpt W jobs).bins.length = W ∧
    (∀ j, j < jobs.length →
      ((lpt W jobs).assignment.map (fun l => l.count j)).sum = 1) ∧
    (∀ j, jobs.length ≤ j →
      ((lpt W jobs).assignment.map (fun l => l.count j)).sum = 0) ∧
    (∀ w, w < W →
      (lpt W jobs).bins.getD w 0 =
        (((lpt W jobs).assignment.getD w []).map
          (fun i => jobs.getD i 0)).sum) ∧
    (∀ w, w < W → (lpt W jobs).assignment.getD w [] = [] →
      (lpt W jobs).bins.getD w 0 = 0) := by
  have hbase : ∀ w, w < W →
      (List.replicate W (0 : ℚ)).getD w 0 =
        (((List.replicate W ([] : List ℕ)).getD w []).map
          (fun i => jobs.getD i 0)).sum := by
    intro w hw
    rw [getD_replicate W w hw, getD_replicate W w hw]
    simp
  obtain ⟨r1, r2, r3, r4⟩ := lptFold_invariant W hW jobs (lptOrder jobs)
    (List.replicate W []) (List.replicate W 0)
    (List.length_replicate W []) (List.length_replicate W 0) hbase
  have hperm : (lptOrder jobs).Perm (List.range jobs.length) :=
    ((List.insertionSort (idxLe jobs) (List.range jobs.length)).reverse_perm).trans
      (List.perm_insertionSort _ _)
  have ha : (lpt W jobs).assignment =
      (((lptOrder jobs).map (fun i => (i, jobs.getD i 0))).foldl lptStepFull
        (List.replicate W [], List.replicate W 0)).1 := rfl
  have hb : (lpt W jobs).bins =
      (((lptOrder jobs).map (fun i => (i, jobs.getD i 0))).foldl lptStepFull
        (List.replicate W [], List.replicate W 0)).2 := rfl
  have hbase0 : ∀ j : ℕ,
      ((List.replicate W ([] : List ℕ)).map (fun l => l.count j)).sum = 0 := by
    intro j
    rw [List.map_replicate, List.sum_replicate]
    simp
  refine ⟨by rw [ha]; exact r1, by rw [hb]; exact r2, ?_, ?_, ?_, ?_⟩
  · intro j hj
    rw [ha, r4 j, hbase0 j, hperm.count_eq,
      List.count_eq_one_of_mem (List.nodup_range _) (List.mem_range.mpr hj)]
  · intro j hj
    rw [ha, r4 j, hbase0 j, hperm.count_eq,
      List.count_eq_zero_of_not_mem (by simpa using Nat.not_lt.mpr hj)]
  · intro w hw
    rw [ha, hb]
    exact r3 w hw
  · intro w hw hempty
    rw [ha] at hempty
    rw [hb, r3 w hw, hempty]
    simp

/-- Witness for C2 at a concrete instance with a duplicate duration, a
zero duration and more workers than jobs. -/
theorem lpt_assignment_invariants_witness :
    ((lpt 4 [3, 3, 0]).assignment.map (fun l => l.count 1)).sum = 1 ∧
    (lpt 4 [3, 3, 0]).bins.getD 3 0 =
      (((lpt 4 [3, 3, 0]).assignment.getD 3 []).map
        (fun i => ([3, 3, 0] : List ℚ).getD i 0)).sum := by
  have h := lpt_assignment_invariants 4 (by decide) [3, 3, 0]
  exact ⟨h.2.2.1 1 (by decide), h.2.2.2.2.1 3 (by decide)⟩

/-! ## Claim C3: the processing order of `lpt` -/

instance idxLe_total (jobs : List ℚ) : IsTotal ℕ (idxLe jobs) := by
  constructor
  intro i j
  unfold idxLe
  rcases lt_trichotomy (jobs.getD i 0) (jobs.getD j 0) with h | h | h
  · exact Or.inl (Or.inl h)
  · rcases Nat.le_total i j with hij | hij
    · exact Or.inl (Or.inr ⟨h, hij⟩)
    · exact Or.inr (Or.inr ⟨h.symm, hij⟩)
  · exact Or.inr (Or.inl h)

instance idxLe_trans (jobs : List ℚ) : IsTrans ℕ (idxLe jobs) := by
  constructor
  intro a b c hab hbc
  unfold idxLe at hab hbc ⊢
  rcases hab with h1 | ⟨h1, h1n⟩ <;> rcases hbc with h2 | ⟨h2, h2n⟩
  · exact Or.inl (lt_trans h1 h2)
  · exact Or.inl (h2 ▸ h1)
  · exact Or.inl (h1 ▸ h2)
  · exact Or.inr ⟨h1.trans h2, h1n.trans h2n⟩

instance descIdxLe_total (jobs : List ℚ) : IsTotal ℕ (descIdxLe jobs) := by
  constructor
  intro i j
  unfold descIdxLe
  rcases lt_trichotomy (jobs.getD i 0) (jobs.getD j 0) with h | h | h
  · exact Or.inr (Or.inl h)
  · rcases Nat.le_total i j with hij | hij
    · exact Or.inr (Or.inr ⟨h.symm, hij⟩)
    · exact Or.inl (Or.inr ⟨h, hij⟩)
  · exact Or.inl (Or.inl h)

instance descIdxLe_trans (jobs : List ℚ) : IsTrans ℕ (descIdxLe jobs) := by
  constructor
  intro a b c hab hbc
  unfold descIdxLe at hab hbc ⊢
  rcases hab with h1 | ⟨h1, h1n⟩ <;> rcases hbc with h2 | ⟨h2, h2n⟩
  · exact Or.inl (lt_trans h2 h1)
  · exact Or.inl (h2 ▸ h1)
  · exact Or.inl (h1 ▸ h2)
  · exact Or.inr ⟨h1.trans h2, h2n.trans h1n⟩

instance descIdxLe_antisymm (jobs : List ℚ) : IsAntisymm ℕ (descIdxLe jobs) := by
  constructor
  intro a b hab hba
  unfold descIdxLe at hab hba
  rcases hab with h1 | ⟨h1, h1n⟩ <;> rcases hba with h2 | ⟨h2, h2n⟩
  · exact absurd (lt_trans h1 h2) (lt_irrefl _)
  · exact absurd (h2 ▸ h1) (lt_irrefl _)
  · exact absurd (h1 ▸ h2) (lt_irrefl _)
  · omega

theorem lptOrder_perm (jobs : List ℚ) :
    (lptOrder jobs).Perm (List.range jobs.length) :=
  ((List.insertionSort (idxLe jobs)
    (List.range jobs.length)).reverse_perm).trans
    (List.perm_insertionSort _ _)

theorem lptDescOrder_perm (jobs : List ℚ) :
    (lptDescOrder jobs).Perm (List.range jobs.length) :=
  List.perm_insertionSort _ _

theorem lptOrder_sorted_desc (jobs : List ℚ) :
    (lptOrder jobs).Pairwise (descIdxLe jobs) := by
  unfold lptOrder
  rw [List.pairwise_reverse]
  have hs : (List.insertionSort (idxLe jobs)
      (List.range jobs.length)).Pairwise (idxLe jobs) :=
    List.sorted_insertionSort (idxLe jobs) (List.range jobs.length)
  refine hs.imp ?_
  intro a b hab
  unfold idxLe at hab
  unfold descIdxLe
  rcases hab with h | ⟨h, hn⟩
  · exact Or.inl h
  · exact Or.inr ⟨h.symm, hn⟩

theorem lptOrder_eq_lptDescOrder (jobs : List ℚ) :
    lptOrder jobs = lptDescOrder jobs := by
  refine List.eq_of_perm_of_sorted
    ((lptOrder_perm jobs).trans (lptDescOrder_perm jobs).symm)
    (lptOrder_sorted_desc jobs) ?_
  exact List.sorted_insertionSort (descIdxLe jobs) (List.range jobs.length)

/-- C3 counterexample: on the two equal durations `[5, 5]` the code
processes job index 1 first (ties descending), while the tie-break of the
claim (original index ascending) would process job 0 first; the resulting
assignment dicts differ. -/
theorem lpt_tie_break_not_ascending :
    (lpt 1 [5, 5]).assignment = [[1, 0]] ∧
    (lptSpec 1 [5, 5]).assignment = [[0, 1]] ∧
    lpt 1 [5, 5] ≠ lptSpec 1 [5, 5] := by decide

/-! ## Generic lemmas on folds of `addAt` steps (used for the greedy
loads and for the loads of an arbitrary assignment) -/

theorem length_addAt (B : List ℚ) (i : ℕ) (x : ℚ) :
    (addAt B i x).length = B.length := by
  unfold addAt
  exact List.length_set B i _

theorem sum_addAt (B : List ℚ) (i : ℕ) (hi : i < B.length) (x : ℚ) :
    (addAt B i x).sum = B.sum + x := by
  unfold addAt
  induction B generalizing i with
  | nil => simp at hi
  | cons a t ih =>
      cases i with
      | zero => simp [add_assoc, add_comm, add_left_comm]
      | succ m =>
          simp only [List.set_cons_succ, List.sum_cons, List.getD_cons_succ]
          rw [ih m (by simpa using hi)]
          ring

theorem mem_addAt {B : List ℚ} {i : ℕ} {x y : ℚ} (hy : y ∈ addAt B i x) :
    y ∈ B ∨ y = B.getD i 0 + x := by
  unfold addAt at hy
  rcases List.mem_or_eq_of_mem_set hy with h | h
  · exact Or.inl h
  · exact Or.inr h

theorem getD_addAt_self (B : List ℚ) (i : ℕ) (hi : i < B.length) (x : ℚ) :
    (addAt B i x).getD i 0 = B.getD i 0 + x :=
  getD_set_self B i hi _ 0

theorem getD_addAt_ne (B : List ℚ) {i w : ℕ} (hne : w ≠ i) (x : ℚ) :
    (addAt B i x).getD w 0 = B.getD w 0 :=
  getD_set_ne B hne _ 0

theorem foldl_addAt_length {α : Type} (g : List ℚ → α → ℕ) (v : α → ℚ) :
    ∀ (l : List α) (B : List ℚ),
      (l.foldl (fun L a => addAt L (g L a) (v a)) B).length = B.length := by
  intro l
  induction l with
  | nil => intro B; rfl
  | cons a t ih =>
      intro B
      rw [List.foldl_cons, ih, length_addAt]

theorem foldl_addAt_nonneg {α : Type} (g : List ℚ → α → ℕ) (v : α → ℚ) :
    ∀ (l : List α) (B : List ℚ), (∀ x ∈ B, 0 ≤ x) → (∀ a ∈ l, 0 ≤ v a) →
      ∀ x ∈ l.foldl (fun L a => addAt L (g L a) (v a)) B, 0 ≤ x := by
  intro l
  induction l with
  | nil => intro B hB _ x hx; exact hB x hx
  | cons a t ih =>
      intro B hB hl x hx
      rw [List.foldl_cons] at hx
      refine ih _ ?_ (fun b hb => hl b (List.mem_cons_of_mem a hb)) x hx
      intro y hy
      rcases mem_addAt hy with h | h
      · exact hB y h
      · rw [h]
        have h0 : 0 ≤ B.getD (g B a) 0 := by
          rw [List.getD_eq_getElem?_getD]
          rcases Nat.lt_or_ge (g B a) B.length with hlt | hge
          · rw [List.getElem?_eq_getElem hlt]
            exact hB _ (List.getElem_mem _)
          · rw [List.getElem?_eq_none hge]
            exact le_rfl
        exact add_nonneg h0 (hl a (List.mem_cons_self a t))

theorem foldl_addAt_sum {α : Type} (g : List ℚ → α → ℕ) (v : α → ℚ)
    (hg : ∀ (L : List ℚ) (a : α), 0 < L.length → g L a < L.length) :
    ∀ (l : List α) (B : List ℚ), 0 < B.length →
      (l.foldl (fun L a => addAt L (g L a) (v a)) B).sum =
        B.sum + (l.map v).sum := by
  intro l
  induction l with
  | nil => intro B _; simp
  | cons a t ih =>
      intro B hB
      rw [List.foldl_cons, ih _ (by rw [length_addAt]; exact hB),
        sum_addAt B _ (hg B a hB) _]
      simp only [List.map_cons, List.sum_cons]
      ring

/-! ## Lemmas on `listMin` -/

theorem foldl_min_spec (t : List ℚ) : ∀ a : ℚ,
    (t.foldl min a = a ∨ t.foldl min a ∈ t) ∧
    t.foldl min a ≤ a ∧ (∀ x ∈ t, t.foldl min a ≤ x) := by
  induction t with
  | nil => intro a; exact ⟨Or.inl rfl, le_rfl, fun x hx => absurd hx (by simp)⟩
  | cons b t2 ih =>
      intro a
      obtain ⟨hmem, hle, hall⟩ := ih (min a b)
      rw [List.foldl_cons]
      refine ⟨?_, le_trans hle (min_le_left a b), ?_⟩
      · rcases hmem with h | h
        · rcases le_total a b with hab | hab
          · rw [h, min_eq_left hab] at *
            exact Or.inl rfl
          · rw [h, min_eq_right hab]
            exact Or.inr (List.mem_cons_self b t2)
        · exact Or.inr (List.mem_cons_of_mem b h)
      · intro x hx
        rcases List.mem_cons.mp hx with rfl | hx2
        · exact le_trans hle (min_le_right a x)
        · exact hall x hx2

theorem listMin_le {l : List ℚ} {x : ℚ} (hx : x ∈ l) : listMin l ≤ x := by
  match l with
  | [] => cases hx
  | a :: t =>
      show t.foldl min a ≤ x
      rcases List.mem_cons.mp hx with rfl | hx2
      · exact (foldl_min_spec t x).2.1
      · exact (foldl_min_spec t a).2.2 x hx2

theorem listMin_mem {l : List ℚ} (hl : l ≠ []) : listMin l ∈ l := by
  match l with
  | [] => exact absurd rfl hl
  | a :: t =>
      show t.foldl min a ∈ a :: t
      rcases (foldl_min_spec t a).1 with h | h
      · rw [h]; exact List.mem_cons_self a t
      · exact List.mem_cons_of_mem a h

/-! ## Lemmas on `allAssignments` and `loadsOf` -/

theorem mem_allAssignments (W : ℕ) : ∀ (n : ℕ) (f : List ℕ),
    f ∈ allAssignments W n ↔ f.length = n ∧ ∀ w ∈ f, w < W := by
  intro n
  induction n with
  | zero =>
      intro f
      show f ∈ [[]] ↔ _
      constructor
      · intro h
        rw [List.mem_singleton.mp h]
        exact ⟨rfl, fun w hw => absurd hw (by simp)⟩
      · rintro ⟨hlen, -⟩
        rw [List.length_eq_zero.mp hlen]
        exact List.mem_singleton.mpr rfl
  | succ n ih =>
      intro f
      show f ∈ (List.range W).flatMap
          (fun w => (allAssignments W n).map (fun f => w :: f)) ↔ _
      rw [List.mem_flatMap]
      constructor
      · rintro ⟨w, hw, hf⟩
        obtain ⟨f2, hf2, rfl⟩ := List.mem_map.mp hf
        obtain ⟨hlen, hall⟩ := (ih f2).mp hf2
        refine ⟨by simp [hlen], ?_⟩
        intro u hu
        rcases List.mem_cons.mp hu with rfl | hu2
        · exact List.mem_range.mp hw
        · exact hall u hu2
      · rintro ⟨hlen, hall⟩
        match f with
        | [] => simp at hlen
        | w :: f2 =>
            refine ⟨w, List.mem_range.mpr
              (hall w (List.mem_cons_self w f2)), ?_⟩
            refine List.mem_map.mpr ⟨f2, ?_, rfl⟩
            exact (ih f2).mpr ⟨by simpa using hlen,
              fun u hu => hall u (List.mem_cons_of_mem w hu)⟩

theorem allAssignments_nonempty (W : ℕ) (hW : 1 ≤ W) (n : ℕ) :
    List.replicate n 0 ∈ allAssignments W n :=
  (mem_allAssignments W n _).mpr ⟨List.length_replicate n 0,
    fun w hw => by rw [List.eq_of_mem_replicate hw]; omega⟩

theorem loadsOf_length (W : ℕ) (jobs : List ℚ) (f : List ℕ) :
    (loadsOf W jobs f).length = W := by
  unfold loadsOf
  rw [foldl_addAt_length (fun _ p => p.1) (fun p => p.2) (f.zip jobs)
    (List.replicate W 0)]
  exact List.length_replicate W 0

theorem loadsOf_nonneg (W : ℕ) (jobs : List ℚ) (hnn : ∀ x ∈ jobs, 0 ≤ x)
    (f : List ℕ) : ∀ x ∈ loadsOf W jobs f, 0 ≤ x := by
  unfold loadsOf
  refine foldl_addAt_nonneg (fun _ p => p.1) (fun p => p.2) (f.zip jobs)
    (List.replicate W 0) ?_ ?_
  · intro x hx
    rw [List.eq_of_mem_replicate hx]
  · intro p hp
    exact hnn p.2 (List.of_mem_zip hp).2

theorem loadsOf_sum (W : ℕ) (jobs : List ℚ) (f : List ℕ)
    (hlen : f.length = jobs.length) (hall : ∀ w ∈ f, w < W) :
    (loadsOf W jobs f).sum = jobs.sum := by
  unfold loadsOf
  have hidx : ∀ (L : List ℚ) (p : ℕ × ℚ), p ∈ f.zip jobs →
      L.length = W → p.1 < L.length := by
    intro L p hp hL
    rw [hL]
    exact hall p.1 (List.of_mem_zip hp).1
  have hgen : ∀ (l : List (ℕ × ℚ)) (B : List ℚ), B.length = W →
      (∀ p ∈ l, p ∈ f.zip jobs) →
      (l.foldl (fun L p => addAt L p.1 p.2) B).sum =
        B.sum + (l.map (fun p => p.2)).sum := by
    intro l
    induction l with
    | nil => intro B _ _; simp
    | cons p t ih =>
        intro B hB hsub
        rw [List.foldl_cons,
          ih _ (by rw [length_addAt]; exact hB)
            (fun q hq => hsub q (List.mem_cons_of_mem p hq)),
          sum_addAt B _ (hidx B p (hsub p (List.mem_cons_self p t)) hB) _]
        simp only [List.map_cons, List.sum_cons]
        ring
  rw [hgen (f.zip jobs) (List.replicate W 0) (List.length_replicate W 0)
    (fun p hp => hp)]
  have hmap : (f.zip jobs).map (fun p => p.2) = jobs :=
    List.map_snd_zip f jobs (le_of_eq hlen.symm)
  rw [hmap]
  simp

theorem getD_replicate_zero (W w : ℕ) :
    (List.replicate W (0 : ℚ)).getD w 0 = 0 := by
  rcases Nat.lt_or_ge w W with h | h
  · exact getD_replicate W w h 0 0
  · rw [List.getD_eq_getElem?_getD, List.getElem?_eq_none (by simpa using h)]
    rfl

theorem foldl_addAt_getD (l : List (ℕ × ℚ)) : ∀ (B : List ℚ) (w : ℕ),
    (∀ p ∈ l, p.1 < B.length) →
    (l.foldl (fun L p => addAt L p.1 p.2) B).getD w 0 =
      B.getD w 0 +
        ((l.filter (fun p => decide (p.1 = w))).map (fun p => p.2)).sum := by
  induction l with
  | nil => intro B w _; simp
  | cons p t ih =>
      intro B w hall
      rw [List.foldl_cons, ih _ w (by
        intro q hq
        rw [length_addAt]
        exact hall q (List.mem_cons_of_mem _ hq))]
      by_cases hpw : p.1 = w
      · rw [List.filter_cons_of_pos (by simpa using hpw), List.map_cons,
          List.sum_cons, ← hpw, getD_addAt_self B p.1
            (hall p (List.mem_cons_self p t)) p.2]
        ring
      · rw [List.filter_cons_of_neg (by simpa using hpw),
          getD_addAt_ne B (fun h => hpw h.symm) p.2]

theorem loadsOf_getD (W : ℕ) (jobs : List ℚ) (f : List ℕ)
    (hall : ∀ w ∈ f, w < W) (w : ℕ) :
    (loadsOf W jobs f).getD w 0 =
      (((f.zip jobs).filter (fun p => decide (p.1 = w))).map
        (fun p => p.2)).sum := by
  unfold loadsOf
  rw [foldl_addAt_getD (f.zip jobs) (List.replicate W 0) w (by
    intro q hq
    rw [List.length_replicate]
    exact hall q.1 (List.of_mem_zip hq).1)]
  rw [getD_replicate_zero, zero_add]

/-! ## Basic facts about `optimalMakespan` -/

theorem optimalMakespan_le (W : ℕ) (jobs : List ℚ) (f : List ℕ)
    (hf : f ∈ allAssignments W jobs.length) :
    optimalMakespan W jobs ≤ makespan (loadsOf W jobs f) :=
  listMin_le (List.mem_map.mpr ⟨f, hf, rfl⟩)

theorem optimalMakespan_attained (W : ℕ) (hW : 1 ≤ W) (jobs : List ℚ) :
    ∃ f ∈ allAssignments W jobs.length,
      optimalMakespan W jobs = makespan (loadsOf W jobs f) := by
  have hne : (allAssignments W jobs.length).map
      (fun f => makespan (loadsOf W jobs f)) ≠ [] :=
    List.ne_nil_of_mem (List.mem_map.mpr
      ⟨List.replicate jobs.length 0,
        allAssignments_nonempty W hW jobs.length, rfl⟩)
  obtain ⟨f, hf, heq⟩ := List.mem_map.mp (listMin_mem hne)
  exact ⟨f, hf, heq.symm⟩

theorem optimalMakespan_nonneg (W : ℕ) (hW : 1 ≤ W) (jobs : List ℚ) :
    0 ≤ optimalMakespan W jobs := by
  obtain ⟨f, -, heq⟩ := optimalMakespan_attained W hW jobs
  rw [heq]
  exact makespan_nonneg _

theorem sum_le_length_mul (B : List ℚ) (c : ℚ) (h : ∀ x ∈ B, x ≤ c) :
    B.sum ≤ (B.length : ℚ) * c := by
  induction B with
  | nil => simp
  | cons a t ih =>
      simp only [List.sum_cons, List.length_cons]
      have h1 : a ≤ c := h a (List.mem_cons_self a t)
      have h2 : t.sum ≤ (t.length : ℚ) * c :=
        ih (fun x hx => h x (List.mem_cons_of_mem a hx))
      push_cast
      nlinarith

theorem sum_le_mul_optimalMakespan (W : ℕ) (hW : 1 ≤ W) (jobs : List ℚ) :
    jobs.sum ≤ (W : ℚ) * optimalMakespan W jobs := by
  obtain ⟨f, hf, heq⟩ := optimalMakespan_attained W hW jobs
  obtain ⟨hlen, hall⟩ := (mem_allAssignments W jobs.length f).mp hf
  have hsum := loadsOf_sum W jobs f hlen hall
  have hle : (loadsOf W jobs f).sum ≤
      ((loadsOf W jobs f).length : ℚ) * makespan (loadsOf W jobs f) :=
    sum_le_length_mul _ _ (fun x hx => le_makespan hx)
  rw [loadsOf_length W jobs f] at hle
  rw [← hsum, heq]
  exact hle

theorem le_optimalMakespan_of_mem (W : ℕ) (hW : 1 ≤ W) (jobs : List ℚ)
    (hnn : ∀ x ∈ jobs, 0 ≤ x) {x : ℚ} (hx : x ∈ jobs) :
    x ≤ optimalMakespan W jobs := by
  obtain ⟨f, hf, heq⟩ := optimalMakespan_attained W hW jobs
  obtain ⟨hlen, hall⟩ := (mem_allAssignments W jobs.length f).mp hf
  obtain ⟨i, hi, hval⟩ := List.getElem_of_mem hx
  have hif : i < f.length := by rw [hlen]; exact hi
  have hzlen : i < (f.zip jobs).length := by
    rw [List.length_zip]
    rw [hlen]
    simpa using hi
  have hpair : (f[i], jobs[i]) ∈ f.zip jobs := by
    have hez : (f.zip jobs)[i] = (f[i], jobs[i]) :=
      List.getElem_zip (h := hzlen)
    rw [← hez]
    exact List.getElem_mem _
  set w := f.getD i 0 with hw
  have hwfi : f[i] = w := by
    rw [hw, List.getD_eq_getElem _ _ hif]
  have hmemfilter : (f[i], jobs[i]) ∈
      (f.zip jobs).filter (fun p => decide (p.1 = w)) :=
    List.mem_filter.mpr ⟨hpair, by simpa using hwfi⟩
  have hmemmap : jobs[i] ∈
      ((f.zip jobs).filter (fun p => decide (p.1 = w))).map
        (fun p => p.2) :=
    List.mem_map.mpr ⟨(f[i], jobs[i]), hmemfilter, rfl⟩
  have hxle : x ≤ (((f.zip jobs).filter (fun p => decide (p.1 = w))).map
      (fun p => p.2)).sum := by
    rw [← hval]
    refine List.single_le_sum ?_ _ hmemmap
    intro y hy
    obtain ⟨p, hp, rfl⟩ := List.mem_map.mp hy
    exact hnn p.2 (List.of_mem_zip (List.mem_filter.mp hp).1).2
  have hload : (loadsOf W jobs f).getD w 0 =
      (((f.zip jobs).filter (fun p => decide (p.1 = w))).map
        (fun p => p.2)).sum := loadsOf_getD W jobs f hall w
  have hwW : w < W := by
    rw [hw, List.getD_eq_getElem _ _ hif]
    exact hall _ (List.getElem_mem _)
  have hmem2 : (loadsOf W jobs f).getD w 0 ∈ loadsOf W jobs f := by
    rw [List.getD_eq_getElem _ _ (by rw [loadsOf_length]; exact hwW)]
    exact List.getElem_mem _
  rw [heq]
  exact le_trans hxle (le_trans (le_of_eq hload.symm) (le_makespan hmem2))

/-! ## The bins of `lpt` as a greedy fold over the sorted durations -/

theorem foldl_lptStepFull_snd (pairs : List (ℕ × ℚ)) :
    ∀ (A : List (List ℕ)) (B : List ℚ),
      (pairs.foldl lptStepFull (A, B)).2 =
        (pairs.map Prod.snd).foldl lptStep B := by
  induction pairs with
  | nil => intro A B; rfl
  | cons p t ih =>
      intro A B
      rw [List.foldl_cons, List.map_cons, List.foldl_cons]
      exact ih _ _

theorem lpt_bins_eq (W : ℕ) (jobs : List ℚ) :
    (lpt W jobs).bins =
      lptLoads W ((lptOrder jobs).map (fun i => jobs.getD i 0)) := by
  have h1 : (lpt W jobs).bins =
      (((lptOrder jobs).map (fun i => (i, jobs.getD i 0))).foldl lptStepFull
        (List.replicate W [], List.replicate W 0)).2 := rfl
  rw [h1, foldl_lptStepFull_snd, List.map_map]
  rfl

theorem lptOn_bins_eq (W : ℕ) (jobs : List ℚ) (o : List ℕ) :
    (lptOn W jobs o).bins =
      lptLoads W (o.map (fun i => jobs.getD i 0)) := by
  have h1 : (lptOn W jobs o).bins =
      ((o.map (fun i => (i, jobs.getD i 0))).foldl lptStepFull
        (List.replicate W [], List.replicate W 0)).2 := rfl
  rw [h1, foldl_lptStepFull_snd, List.map_map]
  rfl

instance geRat_antisymm : IsAntisymm ℚ (fun a b : ℚ => b ≤ a) :=
  ⟨fun _ _ h1 h2 => le_antisymm h2 h1⟩

theorem lptOrder_map_sorted_desc (jobs : List ℚ) :
    ((lptOrder jobs).map (fun i => jobs.getD i 0)).Pairwise
      (fun a b : ℚ => b ≤ a) := by
  rw [List.pairwise_map]
  refine (lptOrder_sorted_desc jobs).imp ?_
  intro i j hij
  rcases hij with h | ⟨h, -⟩
  · exact le_of_lt h
  · exact le_of_eq h.symm

/-- C3 amended: `lpt` processes the jobs by duration descending and gives
each one to the worker of smallest running load. `np.argsort` (default
quicksort, not stable) guarantees only an index permutation with
non-decreasing values, so for any admissible argsort outcome `ord` the
reversed walk `ord.reverse` visits durations in non-increasing order and
every job index exactly once; the resulting load vector is the same for
every admissible tie order, equal to the bins of the model `lpt` — so the
bins (hence the makespan) are a deterministic function of the worker
count and the job list, while the per-worker index lists may depend on
the unspecified order among equal durations. At each step the job goes to
`argmin bins`: the first worker attaining the smallest current load. -/
theorem lpt_processing_order_amended (W : ℕ) (jobs : List ℚ)
    (ord : List ℕ) (hord : isArgsortOf jobs ord)
    (bins : List ℚ) (hbins : bins ≠ []) :
    (ord.reverse.map (fun i => jobs.getD i 0)).Pairwise
      (fun a b : ℚ => b ≤ a) ∧
    ord.reverse.Perm (List.range jobs.length) ∧
    (lptOn W jobs ord.reverse).bins = (lpt W jobs).bins ∧
    (argmin bins < bins.length ∧
     (∀ j, j < bins.length → bins.getD (argmin bins) 0 ≤ bins.getD j 0) ∧
     (∀ j, j < argmin bins → bins.getD (argmin bins) 0 < bins.getD j 0)) := by
  obtain ⟨hperm, hasc⟩ := hord
  have hdesc : (ord.reverse.map (fun i => jobs.getD i 0)).Pairwise
      (fun a b : ℚ => b ≤ a) := by
    rw [List.map_reverse, List.pairwise_reverse]
    exact hasc
  refine ⟨hdesc, ord.reverse_perm.trans hperm, ?_, argmin_spec bins hbins⟩
  rw [lptOn_bins_eq, lpt_bins_eq]
  have hp : (ord.reverse.map (fun i => jobs.getD i 0)).Perm
      ((lptOrder jobs).map (fun i => jobs.getD i 0)) :=
    ((ord.reverse_perm.trans hperm).trans (lptOrder_perm jobs).symm).map _
  rw [List.eq_of_perm_of_sorted hp hdesc (lptOrder_map_sorted_desc jobs)]

/-- Witness for C3 amended: a non-canonical tie order among the two equal
durations of `[5, 5, 4]` still satisfies the argsort contract and yields
the same bins as the model. -/
theorem lpt_processing_order_amended_witness :
    isArgsortOf [5, 5, 4] ([2, 0, 1] : List ℕ) ∧
    ([3, 1, 2] : List ℚ) ≠ [] ∧
    (lptOn 2 [5, 5, 4] ([2, 0, 1] : List ℕ).reverse).bins =
      (lpt 2 [5, 5, 4]).bins :=
  ⟨⟨by decide, by decide⟩, by decide,
   (lpt_processing_order_amended 2 [5, 5, 4] [2, 0, 1]
     ⟨by decide, by decide⟩ [3, 1, 2] (by decide)).2.2.1⟩

/-! ## The load fibers of an assignment, and invariance of the optimal
makespan under the sorting permutation -/

theorem filter_zip_sum_eq_fiber (f : List ℕ) : ∀ (jobs : List ℚ),
    f.length = jobs.length → ∀ w : ℕ,
    (((f.zip jobs).filter (fun p => decide (p.1 = w))).map
      (fun p => p.2)).sum =
      ∑ i ∈ (Finset.range jobs.length).filter (fun i => f.getD i 0 = w),
        jobs.getD i 0 := by
  induction f with
  | nil =>
      intro jobs hlen w
      rw [List.length_eq_zero.mp hlen.symm]
      simp
  | cons w0 ft ih =>
      intro jobs hlen w
      match jobs with
      | [] => simp at hlen
      | x :: jt =>
          have hlen2 : ft.length = jt.length := by simpa using hlen
          have hzip : (w0 :: ft).zip (x :: jt) = (w0, x) :: ft.zip jt := rfl
          rw [hzip]
          have hR : ∑ i ∈ (Finset.range (x :: jt).length).filter
              (fun i => (w0 :: ft).getD i 0 = w), (x :: jt).getD i 0 =
              (if w0 = w then x else 0) +
              ∑ i ∈ (Finset.range jt.length).filter
                (fun i => ft.getD i 0 = w), jt.getD i 0 := by
            rw [Finset.sum_filter]
            have hlen3 : (x :: jt).length = jt.length + 1 := rfl
            rw [hlen3, Finset.sum_range_succ']
            simp only [List.getD_cons_succ, List.getD_cons_zero]
            rw [← Finset.sum_filter]
            ring
          rw [hR]
          by_cases hw0 : w0 = w
          · rw [List.filter_cons_of_pos (by simpa using hw0), List.map_cons,
              List.sum_cons, ih jt hlen2 w, if_pos hw0]
          · rw [List.filter_cons_of_neg (by simpa using hw0),
              ih jt hlen2 w, if_neg hw0]
            ring

theorem loadsOf_reindex (W : ℕ) (jobs : List ℚ) (ord : List ℕ)
    (hperm : ord.Perm (List.range jobs.length)) (f : List ℕ)
    (hflen : f.length = jobs.length) (hfall : ∀ u ∈ f, u < W) :
    ∀ w : ℕ,
      (loadsOf W (ord.map (fun i => jobs.getD i 0))
        (ord.map (fun i => f.getD i 0))).getD w 0 =
      (loadsOf W jobs f).getD w 0 := by
  intro w
  set n := jobs.length with hn
  have hordlen : ord.length = n := hperm.length_eq.trans (List.length_range n)
  have hnodup : ord.Nodup := hperm.nodup_iff.mpr (List.nodup_range n)
  have hordmem : ∀ i, i ∈ ord ↔ i < n :=
    fun i => hperm.mem_iff.trans List.mem_range
  have hgall : ∀ u ∈ ord.map (fun i => f.getD i 0), u < W := by
    intro u hu
    obtain ⟨i, hi, rfl⟩ := List.mem_map.mp hu
    have hin : i < f.length := by rw [hflen]; exact (hordmem i).mp hi
    rw [List.getD_eq_getElem _ _ hin]
    exact hfall _ (List.getElem_mem _)
  have hglen : (ord.map (fun i => f.getD i 0)).length =
      (ord.map (fun i => jobs.getD i 0)).length := by
    simp
  rw [loadsOf_getD W _ _ hgall w, loadsOf_getD W jobs f hfall w,
    filter_zip_sum_eq_fiber _ _ hglen w,
    filter_zip_sum_eq_fiber f jobs hflen w]
  have hplen : (ord.map (fun i => jobs.getD i 0)).length = n := by
    rw [List.length_map, hordlen]
  rw [hplen]
  refine Finset.sum_bij (fun k _ => ord.getD k 0) ?_ ?_ ?_ ?_
  · intro k hk
    dsimp only
    obtain ⟨hkr, hkp⟩ := Finset.mem_filter.mp hk
    have hkn : k < n := Finset.mem_range.mp hkr
    have hkord : k < ord.length := by rw [hordlen]; exact hkn
    refine Finset.mem_filter.mpr ⟨Finset.mem_range.mpr ?_, ?_⟩
    · rw [List.getD_eq_getElem _ _ hkord]
      exact (hordmem _).mp (List.getElem_mem _)
    · have hg : (ord.map (fun i => f.getD i 0)).getD k 0 =
          f.getD (ord.getD k 0) 0 := by
        rw [List.getD_eq_getElem _ _ (by simpa [hordlen] using hkn),
          List.getElem_map, List.getD_eq_getElem _ _ hkord]
      rw [← hg]
      exact hkp
  · intro k1 hk1 k2 hk2 heq
    dsimp only at heq
    have hk1n : k1 < ord.length := by
      rw [hordlen]
      exact Finset.mem_range.mp (Finset.mem_filter.mp hk1).1
    have hk2n : k2 < ord.length := by
      rw [hordlen]
      exact Finset.mem_range.mp (Finset.mem_filter.mp hk2).1
    rw [List.getD_eq_getElem _ _ hk1n, List.getD_eq_getElem _ _ hk2n] at heq
    exact (List.Nodup.getElem_inj_iff hnodup).mp heq
  · intro i hi
    obtain ⟨hir, hip⟩ := Finset.mem_filter.mp hi
    have hin : i < n := Finset.mem_range.mp hir
    obtain ⟨k, hk, hki⟩ := List.getElem_of_mem ((hordmem i).mpr hin)
    refine ⟨k, Finset.mem_filter.mpr ⟨Finset.mem_range.mpr
      (by rw [← hordlen]; exact hk), ?_⟩, ?_⟩
    · have hg : (ord.map (fun i => f.getD i 0)).getD k 0 =
          f.getD (ord.getD k 0) 0 := by
        rw [List.getD_eq_getElem _ _ (by simpa using hk),
          List.getElem_map, List.getD_eq_getElem _ _ hk]
      rw [hg, List.getD_eq_getElem _ _ hk, hki]
      exact hip
    · show ord.getD k 0 = i
      rw [List.getD_eq_getElem _ _ hk]
      exact hki
  · intro k hk
    have hkn : k < ord.length := by
      rw [hordlen]
      exact Finset.mem_range.mp (Finset.mem_filter.mp hk).1
    show (ord.map (fun i => jobs.getD i 0)).getD k 0 =
      jobs.getD (ord.getD k 0) 0
    rw [List.getD_eq_getElem _ _ (by simpa using hkn),
      List.getElem_map, List.getD_eq_getElem _ _ hkn]

theorem optimalMakespan_sorted_le (W : ℕ) (hW : 1 ≤ W) (jobs : List ℚ)
    (ord : List ℕ) (hperm : ord.Perm (List.range jobs.length)) :
    optimalMakespan W (ord.map (fun i => jobs.getD i 0)) ≤
      optimalMakespan W jobs := by
  obtain ⟨f, hf, heq⟩ := optimalMakespan_attained W hW jobs
  obtain ⟨hflen, hfall⟩ := (mem_allAssignments W jobs.length f).mp hf
  set p := ord.map (fun i => jobs.getD i 0) with hp
  set g := ord.map (fun i => f.getD i 0) with hg
  have hordlen : ord.length = jobs.length :=
    hperm.length_eq.trans (List.length_range _)
  have hgmem : g ∈ allAssignments W p.length := by
    refine (mem_allAssignments W p.length g).mpr ⟨by rw [hg, hp]; simp, ?_⟩
    intro u hu
    obtain ⟨i, hi, rfl⟩ := List.mem_map.mp hu
    have hin : i < f.length := by
      rw [hflen]
      exact List.mem_range.mp (hperm.mem_iff.mp hi)
    rw [List.getD_eq_getElem _ _ hin]
    exact hfall _ (List.getElem_mem _)
  have hloads : loadsOf W p g = loadsOf W jobs f := by
    apply List.ext_getElem
    · rw [loadsOf_length, loadsOf_length]
    · intro w h1 h2
      have hw1 : (loadsOf W p g).getD w 0 = (loadsOf W p g)[w] :=
        List.getD_eq_getElem _ _ h1
      have hw2 : (loadsOf W jobs f).getD w 0 = (loadsOf W jobs f)[w] :=
        List.getD_eq_getElem _ _ h2
      rw [← hw1, ← hw2]
      exact loadsOf_reindex W jobs ord hperm f hflen hfall w
  calc optimalMakespan W p ≤ makespan (loadsOf W p g) :=
        optimalMakespan_le W p g hgmem
    _ = makespan (loadsOf W jobs f) := by rw [hloads]
    _ = optimalMakespan W jobs := heq.symm

/-! ## Properties of the greedy loads `lptLoads` -/

theorem lptLoads_length (W : ℕ) (p : List ℚ) :
    (lptLoads W p).length = W := by
  show (p.foldl (fun L a => addAt L (argmin L) a) (List.replicate W 0)).length = W
  rw [foldl_addAt_length (fun L _ => argmin L) (fun a => a) p
    (List.replicate W 0)]
  exact List.length_replicate W 0

theorem lptLoads_ne_nil (W : ℕ) (hW : 1 ≤ W) (p : List ℚ) :
    lptLoads W p ≠ [] := by
  intro h
  have := lptLoads_length W p
  rw [h] at this
  simp at this
  omega

theorem lptLoads_sum (W : ℕ) (hW : 1 ≤ W) (p : List ℚ) :
    (lptLoads W p).sum = p.sum := by
  show (p.foldl (fun L a => addAt L (argmin L) a) (List.replicate W 0)).sum = _
  rw [foldl_addAt_sum (fun L _ => argmin L) (fun a => a) ?_ p
    (List.replicate W 0) (by simpa using hW)]
  · simp
  · intro L a hL
    exact argmin_lt_length (by
      intro h
      rw [h] at hL
      simp at hL)

theorem lptLoads_nonneg (W : ℕ) (p : List ℚ) (hnn : ∀ x ∈ p, 0 ≤ x) :
    ∀ x ∈ lptLoads W p, 0 ≤ x := by
  show ∀ x ∈ p.foldl (fun L a => addAt L (argmin L) a) (List.replicate W 0), _
  refine foldl_addAt_nonneg (fun L _ => argmin L) (fun a => a) p
    (List.replicate W 0) ?_ hnn
  intro x hx
  rw [List.eq_of_mem_replicate hx]

theorem lptLoads_append_singleton (W : ℕ) (p : List ℚ) (a : ℚ) :
    lptLoads W (p ++ [a]) = lptStep (lptLoads W p) a := by
  unfold lptLoads
  rw [List.foldl_append]
  rfl

/-! ## Sorted-list utilities -/

theorem sorted_getD_mono {p : List ℚ}
    (hs : p.Pairwise (fun a b : ℚ => b ≤ a)) {i j : ℕ} (hij : i ≤ j)
    (hj : j < p.length) : p.getD j 0 ≤ p.getD i 0 := by
  rcases Nat.lt_or_ge i j with h | h
  · rw [List.getD_eq_getElem _ _ hj, List.getD_eq_getElem _ _ (lt_of_le_of_lt hij hj)]
    exact List.pairwise_iff_getElem.mp hs i j _ hj h
  · have hji : i = j := by omega
    rw [hji]

theorem one_le_rho (W : ℕ) (hW : 1 ≤ W) :
    (1 : ℚ) ≤ 4 / 3 - 1 / (3 * (W : ℚ)) := by
  have hw : (1 : ℚ) ≤ (W : ℚ) := by exact_mod_cast hW
  have hw0 : (0 : ℚ) < (W : ℚ) := by linarith
  have h1 : 1 / (3 * (W : ℚ)) ≤ 1 / 3 := by
    rw [div_le_div_iff (by linarith) (by norm_num)]
    linarith
  linarith

theorem rho_nonneg (W : ℕ) (hW : 1 ≤ W) :
    (0 : ℚ) ≤ 4 / 3 - 1 / (3 * (W : ℚ)) :=
  le_trans zero_le_one (one_le_rho W hW)

theorem length_mul_le_sum (B : List ℚ) (m : ℚ)
    (h : ∀ j, j < B.length → m ≤ B.getD j 0) :
    (B.length : ℚ) * m ≤ B.sum := by
  induction B with
  | nil => simp
  | cons a t ih =>
      have h0 : m ≤ a := by simpa using h 0 (by simp)
      have ht : (t.length : ℚ) * m ≤ t.sum := by
        refine ih ?_
        intro j hj
        simpa using h (j + 1) (by simpa using hj)
      simp only [List.length_cons, List.sum_cons]
      push_cast
      nlinarith

/-! ## Phase one of the greedy loop: the first `min(n, W)` jobs land on
distinct empty workers -/

theorem lptLoads_take_phase1 (W : ℕ) (p : List ℚ) (hpos : ∀ x ∈ p, 0 < x) :
    ∀ k, k ≤ W → k ≤ p.length →
      lptLoads W (p.take k) = p.take k ++ List.replicate (W - k) 0 := by
  intro k
  induction k with
  | zero => intro _ _; simp [lptLoads]
  | succ m ih =>
      intro hkW hkn
      have hm : lptLoads W (p.take m) = p.take m ++ List.replicate (W - m) 0 :=
        ih (by omega) (by omega)
      have hmn : m < p.length := by omega
      have htake : p.take (m + 1) = p.take m ++ [p[m]] := by
        rw [List.take_succ, List.getElem?_eq_getElem hmn]
        rfl
      rw [htake, lptLoads_append_singleton, hm]
      set L := p.take m ++ List.replicate (W - m) 0 with hL
      have htakelen : (p.take m).length = m := by
        rw [List.length_take]
        omega
      have hLlen : L.length = W := by
        rw [hL, List.length_append, htakelen, List.length_replicate]
        omega
      have hLne : L ≠ [] := by
        intro h
        rw [h] at hLlen
        simp at hLlen
        omega
      have hgetL : ∀ j, j < m → L.getD j 0 = p.getD j 0 := by
        intro j hj
        rw [hL, List.getD_append _ _ _ j (by omega),
          List.getD_eq_getElem _ _ (by omega), List.getElem_take,
          List.getD_eq_getElem _ _ (by omega)]
      have hgetL0 : ∀ j, m ≤ j → j < W → L.getD j 0 = 0 := by
        intro j hj1 hj2
        rw [hL, List.getD_append_right _ _ _ j (by omega), htakelen]
        exact getD_replicate_zero _ _
      have hargmin : argmin L = m := by
        obtain ⟨h1, h2, h3⟩ := argmin_spec L hLne
        by_contra hne
        rcases Nat.lt_or_ge (argmin L) m with hlt | hge
        · have hminval : L.getD (argmin L) 0 ≤ L.getD m 0 := h2 m (by omega)
          rw [hgetL0 m le_rfl (by omega)] at hminval
          have hpos2 : 0 < L.getD (argmin L) 0 := by
            rw [hgetL _ hlt]
            refine hpos _ ?_
            rw [List.getD_eq_getElem _ _ (by omega)]
            exact List.getElem_mem _
          linarith
        · have hgt : m < argmin L := by omega
          have hfirst := h3 m hgt
          rw [hgetL0 m le_rfl (by omega)] at hfirst
          have hzero : L.getD (argmin L) 0 = 0 :=
            hgetL0 _ (by omega) (by rw [← hLlen]; exact h1)
          linarith
      show addAt L (argmin L) p[m] = _
      unfold addAt
      rw [hargmin, hgetL0 m le_rfl (by omega), zero_add, hL,
        List.set_append, htakelen, if_neg (lt_irrefl m), Nat.sub_self]
      have hWm : W - m = (W - (m + 1)) + 1 := by omega
      rw [hWm, List.replicate_succ, List.set_cons_zero, List.append_assoc]
      rfl

theorem sorted_le_head {p : List ℚ}
    (hs : p.Pairwise (fun a b : ℚ => b ≤ a)) {x : ℚ} (hx : x ∈ p) :
    x ≤ p.getD 0 0 := by
  obtain ⟨i, hi, hval⟩ := List.getElem_of_mem hx
  rw [← hval, ← List.getD_eq_getElem _ _ hi]
  exact sorted_getD_mono hs (Nat.zero_le i) hi

/-! ## The hard case: all durations above a third of the target -/

theorem card_erase_step (S : Finset ℕ) (a W k : ℕ) (hk : k < 2 * W)
    (h : 2 * W - k ≤ S.card) : 2 * W - (k + 1) ≤ (S.erase a).card := by
  by_cases hmem : a ∈ S
  · rw [Finset.card_erase_of_mem hmem]
    omega
  · rw [Finset.erase_eq_of_not_mem hmem]
    omega

theorem lptLoads_hard (W : ℕ) (hW : 1 ≤ W) (p : List ℚ) (T : ℚ)
    (hsorted : p.Pairwise (fun a b : ℚ => b ≤ a))
    (hpos : ∀ x ∈ p, 0 < x)
    (hn2W : p.length ≤ 2 * W)
    (hT0 : 0 ≤ T)
    (hp0 : p.getD 0 0 ≤ T)
    (hpair : ∀ j, W ≤ j → j < p.length →
      p.getD j 0 + p.getD (2 * W - 1 - j) 0 ≤ T) :
    makespan (lptLoads W p) ≤ T := by
  rcases le_or_lt p.length W with hnW | hWn
  · have h1 := lptLoads_take_phase1 W p hpos p.length hnW le_rfl
    rw [List.take_length] at h1
    rw [h1]
    refine makespan_le hT0 ?_
    intro x hx
    rcases List.mem_append.mp hx with h | h
    · exact le_trans (sorted_le_head hsorted h) hp0
    · rw [List.eq_of_mem_replicate h]
      exact hT0
  · have haux : ∀ m, W + m ≤ p.length →
        ∃ S : Finset ℕ, S ⊆ Finset.range W ∧ 2 * W - (W + m) ≤ S.card ∧
        (∃ σ : ℕ → ℕ, Set.InjOn σ S ∧ ∀ i ∈ S, σ i < W ∧
          (lptLoads W (p.take (W + m))).getD i 0 = p.getD (σ i) 0) ∧
        makespan (lptLoads W (p.take (W + m))) ≤ T := by
      intro m
      induction m with
      | zero =>
          intro hmn
          have h1 := lptLoads_take_phase1 W p hpos W le_rfl (by omega)
          rw [Nat.sub_self] at h1
          have h2 : lptLoads W (p.take (W + 0)) = p.take W := by
            rw [Nat.add_zero, h1]
            simp
          have htakelen : (p.take W).length = W := by
            rw [List.length_take]
            omega
          refine ⟨Finset.range W, subset_rfl, ?_, ⟨id, ?_, ?_⟩, ?_⟩
          · rw [Finset.card_range]
            omega
          · exact fun a _ b _ h => h
          · intro i hi
            have hiW : i < W := Finset.mem_range.mp hi
            refine ⟨hiW, ?_⟩
            simp only [id_eq]
            rw [h2, List.getD_eq_getElem _ _ (by omega),
              List.getElem_take, List.getD_eq_getElem _ _ (by omega)]
          · rw [h2]
            refine makespan_le hT0 ?_
            intro x hx
            exact le_trans (sorted_le_head hsorted
              (List.take_subset W p hx)) hp0
      | succ m ihm =>
          intro hmn
          obtain ⟨S, hSsub, hScard, ⟨σ, hσinj, hσ⟩, hms⟩ := ihm (by omega)
          have hkk : W + (m + 1) = (W + m) + 1 := by omega
          rw [hkk]
          set k := W + m with hk
          have hkn : k < p.length := by omega
          have hkW : W ≤ k := by omega
          have hk2W : k < 2 * W := by omega
          set L := lptLoads W (p.take k) with hLdef
          have hLlen : L.length = W := lptLoads_length W _
          have hLne : L ≠ [] := by
            intro h
            rw [h] at hLlen
            simp at hLlen
            omega
          have htake : p.take (k + 1) = p.take k ++ [p[k]] := by
            rw [List.take_succ, List.getElem?_eq_getElem hkn]
            rfl
          have hstep : lptLoads W (p.take (k + 1)) =
              addAt L (argmin L) p[k] := by
            rw [htake, lptLoads_append_singleton]
            rfl
          have hSne : ∃ w ∈ S, 2 * W - 1 - k ≤ σ w := by
            by_contra hno
            push_neg at hno
            have himg : S.image σ ⊆ Finset.range (2 * W - 1 - k) := by
              intro u hu
              obtain ⟨w, hw, rfl⟩ := Finset.mem_image.mp hu
              exact Finset.mem_range.mpr (hno w hw)
            have hcard2 : S.card ≤ 2 * W - 1 - k := by
              calc S.card = (S.image σ).card :=
                    (Finset.card_image_of_injOn hσinj).symm
                _ ≤ (Finset.range (2 * W - 1 - k)).card :=
                    Finset.card_le_card himg
                _ = 2 * W - 1 - k := Finset.card_range _
            omega
          obtain ⟨w0, hw0S, hw0ge⟩ := hSne
          have hw0W : w0 < W := Finset.mem_range.mp (hSsub hw0S)
          obtain ⟨hσw0W, hLw0⟩ := hσ w0 hw0S
          have hmin_le : L.getD (argmin L) 0 ≤ p.getD (2 * W - 1 - k) 0 := by
            have h1 : L.getD (argmin L) 0 ≤ L.getD w0 0 :=
              argmin_le hLne (by rw [hLlen]; exact hw0W)
            rw [hLw0] at h1
            exact le_trans h1 (sorted_getD_mono hsorted hw0ge (by omega))
          have hpkpos : (0 : ℚ) < p[k] := hpos _ (List.getElem_mem _)
          have hnew : L.getD (argmin L) 0 + p[k] ≤ T := by
            have hpp := hpair k hkW hkn
            rw [List.getD_eq_getElem _ _ hkn] at hpp
            linarith
          have hargW : argmin L < W := by
            rw [← hLlen]
            exact argmin_lt_length hLne
          have hms2 : makespan (lptLoads W (p.take (k + 1))) ≤ T := by
            rw [hstep]
            show makespan (L.set (argmin L) (L.getD (argmin L) 0 + p[k])) ≤ T
            rw [makespan_set_max (by rw [hLlen]; exact hargW)
              (le_add_of_nonneg_right (le_of_lt hpkpos))]
            exact max_le hms hnew
          have hcard3 : 2 * W - ((W + m) + 1) ≤ (S.erase (argmin L)).card :=
            card_erase_step S (argmin L) W k hk2W hScard
          refine ⟨S.erase (argmin L),
            (Finset.erase_subset _ _).trans hSsub, hcard3, ⟨σ, ?_, ?_⟩, hms2⟩
          · exact hσinj.mono (Finset.coe_subset.mpr
              (Finset.erase_subset _ _))
          · intro i hi
            have hiS := Finset.mem_of_mem_erase hi
            have hine : i ≠ argmin L := Finset.ne_of_mem_erase hi
            obtain ⟨h1, h2⟩ := hσ i hiS
            refine ⟨h1, ?_⟩
            rw [hstep, getD_addAt_ne L hine _]
            exact h2
    obtain ⟨S, -, -, -, hms⟩ := haux (p.length - W) (by omega)
    have hfull : W + (p.length - W) = p.length := by omega
    rw [hfull, List.take_length] at hms
    exact hms

/-! ## Pigeonhole facts about an optimal assignment when every duration
exceeds a third of the target -/

theorem loadsOf_getD_fiber (W : ℕ) (p : List ℚ) (f : List ℕ)
    (hflen : f.length = p.length) (hfall : ∀ u ∈ f, u < W) (w : ℕ) :
    (loadsOf W p f).getD w 0 =
      ∑ i ∈ (Finset.range p.length).filter (fun i => f.getD i 0 = w),
        p.getD i 0 := by
  rw [loadsOf_getD W p f hfall w, filter_zip_sum_eq_fiber f p hflen w]

theorem fiber_sum_le (W : ℕ) (p : List ℚ) (f : List ℕ)
    (hflen : f.length = p.length) (hfall : ∀ u ∈ f, u < W) (T : ℚ)
    (hmk : makespan (loadsOf W p f) ≤ T)
    (hnn : ∀ i, i < p.length → 0 ≤ p.getD i 0) (w : ℕ) (t : Finset ℕ)
    (hts : t ⊆ (Finset.range p.length).filter (fun i => f.getD i 0 = w))
    (htne : t.Nonempty) :
    ∑ i ∈ t, p.getD i 0 ≤ T := by
  obtain ⟨a, hat⟩ := htne
  obtain ⟨har, haw⟩ := Finset.mem_filter.mp (hts hat)
  have han : a < p.length := Finset.mem_range.mp har
  have haf : a < f.length := by rw [hflen]; exact han
  have hwW : w < W := by
    rw [← haw, List.getD_eq_getElem _ _ haf]
    exact hfall _ (List.getElem_mem _)
  have h1 : ∑ i ∈ t, p.getD i 0 ≤
      ∑ i ∈ (Finset.range p.length).filter (fun i => f.getD i 0 = w),
        p.getD i 0 := by
    refine Finset.sum_le_sum_of_subset_of_nonneg hts ?_
    intro i hi _
    exact hnn i (Finset.mem_range.mp (Finset.mem_filter.mp hi).1)
  rw [← loadsOf_getD_fiber W p f hflen hfall w] at h1
  have h2 : (loadsOf W p f).getD w 0 ≤ makespan (loadsOf W p f) := by
    refine le_makespan ?_
    rw [List.getD_eq_getElem _ _ (by rw [loadsOf_length]; exact hwW)]
    exact List.getElem_mem _
  exact le_trans h1 (le_trans h2 hmk)

theorem fiber_card_le_two (W : ℕ) (p : List ℚ) (f : List ℕ)
    (hflen : f.length = p.length) (hfall : ∀ u ∈ f, u < W) (T : ℚ)
    (hmk : makespan (loadsOf W p f) ≤ T)
    (hbig : ∀ i, i < p.length → T / 3 < p.getD i 0) (w : ℕ) :
    ((Finset.range p.length).filter (fun i => f.getD i 0 = w)).card ≤ 2 := by
  by_contra hcon
  push_neg at hcon
  obtain ⟨t, hts, hcard⟩ := Finset.exists_smaller_set
    ((Finset.range p.length).filter (fun i => f.getD i 0 = w)) 3 (by omega)
  obtain ⟨a, b, c, hab, hac, hbc, rfl⟩ := Finset.card_eq_three.mp hcard
  have hT0 : 0 ≤ T := le_trans (makespan_nonneg _) hmk
  have hnn : ∀ i, i < p.length → 0 ≤ p.getD i 0 := fun i hi =>
    le_of_lt (lt_of_le_of_lt (div_nonneg hT0 (by norm_num)) (hbig i hi))
  have hsum := fiber_sum_le W p f hflen hfall T hmk hnn w _ hts
    ⟨a, by simp⟩
  rw [Finset.sum_insert (by simp [hab, hac]), Finset.sum_pair hbc] at hsum
  have hmem : ∀ x ∈ ({a, b, c} : Finset ℕ), x < p.length := fun x hx =>
    Finset.mem_range.mp (Finset.mem_filter.mp (hts hx)).1
  have hga := hbig a (hmem a (by simp))
  have hgb := hbig b (hmem b (by simp))
  have hgc := hbig c (hmem c (by simp))
  linarith

theorem opt_length_le (W : ℕ) (p : List ℚ) (f : List ℕ)
    (hflen : f.length = p.length) (hfall : ∀ u ∈ f, u < W) (T : ℚ)
    (hmk : makespan (loadsOf W p f) ≤ T)
    (hbig : ∀ i, i < p.length → T / 3 < p.getD i 0) :
    p.length ≤ 2 * W := by
  have hmap : ∀ i ∈ Finset.range p.length,
      f.getD i 0 ∈ Finset.range W := by
    intro i hi
    have hif : i < f.length := by
      rw [hflen]
      exact Finset.mem_range.mp hi
    rw [List.getD_eq_getElem _ _ hif]
    exact Finset.mem_range.mpr (hfall _ (List.getElem_mem _))
  have hcount := Finset.card_eq_sum_card_fiberwise hmap
  rw [Finset.card_range] at hcount
  have hbound : ∑ w ∈ Finset.range W,
      ((Finset.range p.length).filter (fun i => f.getD i 0 = w)).card ≤
      ∑ w ∈ Finset.range W, 2 :=
    Finset.sum_le_sum
      (fun w _ => fiber_card_le_two W p f hflen hfall T hmk hbig w)
  rw [Finset.sum_const, Finset.card_range, smul_eq_mul] at hbound
  omega

theorem opt_pair_bound (W : ℕ) (p : List ℚ)
    (hsorted : p.Pairwise (fun a b : ℚ => b ≤ a))
    (f : List ℕ) (hflen : f.length = p.length) (hfall : ∀ u ∈ f, u < W)
    (T : ℚ) (hmk : makespan (loadsOf W p f) ≤ T)
    (hbig : ∀ i, i < p.length → T / 3 < p.getD i 0)
    (j : ℕ) (hWj : W ≤ j) (hjn : j < p.length) :
    p.getD j 0 + p.getD (2 * W - 1 - j) 0 ≤ T := by
  have hn2W : p.length ≤ 2 * W := opt_length_le W p f hflen hfall T hmk hbig
  have hT0 : 0 ≤ T := le_trans (makespan_nonneg _) hmk
  have hnn : ∀ i, i < p.length → 0 ≤ p.getD i 0 := fun i hi =>
    le_of_lt (lt_of_le_of_lt (div_nonneg hT0 (by norm_num)) (hbig i hi))
  set e := 2 * W - 1 - j with he
  clear_value e
  have heW : e < W := by omega
  have hen : e < p.length := by omega
  have hpair2 : ∀ a b : ℕ, a ≠ b → a ≤ e → b ≤ j →
      f.getD a 0 = f.getD b 0 → p.getD j 0 + p.getD e 0 ≤ T := by
    intro a b hab hae hbj hgab
    have han : a < p.length := by omega
    have hbn : b < p.length := by omega
    have h1 : p.getD e 0 ≤ p.getD a 0 := sorted_getD_mono hsorted hae hen
    have h2 : p.getD j 0 ≤ p.getD b 0 := sorted_getD_mono hsorted hbj hjn
    have h3 : ∑ i ∈ ({a, b} : Finset ℕ), p.getD i 0 ≤ T := by
      refine fiber_sum_le W p f hflen hfall T hmk hnn (f.getD b 0)
        {a, b} ?_ ⟨a, Finset.mem_insert_self a {b}⟩
      intro x hx
      rcases Finset.mem_insert.mp hx with rfl | hx2
      · exact Finset.mem_filter.mpr ⟨Finset.mem_range.mpr han, hgab⟩
      · rw [Finset.mem_singleton.mp hx2]
        exact Finset.mem_filter.mpr ⟨Finset.mem_range.mpr hbn, rfl⟩
    rw [Finset.sum_pair hab] at h3
    linarith
  by_cases hinj : Set.InjOn (fun i => f.getD i 0)
      (Finset.range (e + 1) : Set ℕ)
  · by_cases hhit : ∃ q ∈ Finset.Ioc e j,
        f.getD q 0 ∈ (Finset.range (e + 1)).image (fun i => f.getD i 0)
    · obtain ⟨q, hq, hgq⟩ := hhit
      obtain ⟨a, haS, hga⟩ := Finset.mem_image.mp hgq
      have hae : a ≤ e := Nat.lt_succ_iff.mp (Finset.mem_range.mp haS)
      obtain ⟨heq2, hqj⟩ := Finset.mem_Ioc.mp hq
      exact hpair2 a q (by omega) hae hqj hga
    · exfalso
      push_neg at hhit
      set U := (Finset.range (e + 1)).image (fun i => f.getD i 0) with hU
      have hUsub : U ⊆ Finset.range W := by
        intro u hu
        obtain ⟨i, hi, rfl⟩ := Finset.mem_image.mp hu
        have hie : i < e + 1 := Finset.mem_range.mp hi
        have hif : i < f.length := by rw [hflen]; omega
        rw [List.getD_eq_getElem _ _ hif]
        exact Finset.mem_range.mpr (hfall _ (List.getElem_mem _))
      have hUcard : U.card = e + 1 := by
        rw [hU, Finset.card_image_of_injOn hinj, Finset.card_range]
      have hmap2 : ∀ q ∈ Finset.Ioc e j,
          f.getD q 0 ∈ Finset.range W \ U := by
        intro q hq
        obtain ⟨heq2, hqj⟩ := Finset.mem_Ioc.mp hq
        refine Finset.mem_sdiff.mpr
          ⟨?_, hhit q (Finset.mem_Ioc.mpr ⟨heq2, hqj⟩)⟩
        have hqf : q < f.length := by rw [hflen]; omega
        rw [List.getD_eq_getElem _ _ hqf]
        exact Finset.mem_range.mpr (hfall _ (List.getElem_mem _))
      have hcnt := Finset.card_eq_sum_card_fiberwise hmap2
      have hsum2 : ∑ w ∈ Finset.range W \ U,
          ((Finset.Ioc e j).filter (fun q => f.getD q 0 = w)).card ≤
          ∑ w ∈ Finset.range W \ U, 2 := by
        refine Finset.sum_le_sum ?_
        intro w _
        refine le_trans (Finset.card_le_card ?_)
          (fiber_card_le_two W p f hflen hfall T hmk hbig w)
        intro q hq
        obtain ⟨hqI, hqw⟩ := Finset.mem_filter.mp hq
        obtain ⟨h1, h2⟩ := Finset.mem_Ioc.mp hqI
        exact Finset.mem_filter.mpr ⟨Finset.mem_range.mpr (by omega), hqw⟩
      rw [Finset.sum_const, smul_eq_mul] at hsum2
      have hsd : (Finset.range W \ U).card =
          (Finset.range W).card - U.card := Finset.card_sdiff hUsub
      rw [Finset.card_range] at hsd
      have hI : (Finset.Ioc e j).card = j - e := Nat.card_Ioc e j
      omega
  · rw [Set.injOn_iff_injective] at hinj
    have hnot : ¬ ∀ a b : ℕ, a ≤ e → b ≤ e →
        f.getD a 0 = f.getD b 0 → a = b := by
      intro hall
      refine hinj ?_
      intro a b hfab
      have hae : (a : ℕ) ≤ e := Nat.lt_succ_iff.mp
        (Finset.mem_range.mp (Finset.mem_coe.mp a.2))
      have hbe : (b : ℕ) ≤ e := Nat.lt_succ_iff.mp
        (Finset.mem_range.mp (Finset.mem_coe.mp b.2))
      exact Subtype.ext (hall a b hae hbe hfab)
    push_neg at hnot
    obtain ⟨a, b, hae, hbe, hgab, hab⟩ := hnot
    exact hpair2 a b hab hae (by omega) hgab

/-! ## Dropping the last job cannot raise the optimal makespan -/

theorem opt_dropLast_le (W : ℕ) (hW : 1 ≤ W) (p : List ℚ)
    (hnn : ∀ x ∈ p, 0 ≤ x) :
    optimalMakespan W p.dropLast ≤ optimalMakespan W p := by
  obtain ⟨f, hf, heq⟩ := optimalMakespan_attained W hW p
  obtain ⟨hflen, hfall⟩ := (mem_allAssignments W p.length f).mp hf
  have hflen2 : f.dropLast.length = p.dropLast.length := by
    rw [List.length_dropLast, List.length_dropLast, hflen]
  have hfall2 : ∀ u ∈ f.dropLast, u < W := fun u hu =>
    hfall u (List.dropLast_subset f hu)
  have hg : f.dropLast ∈ allAssignments W p.dropLast.length :=
    (mem_allAssignments W _ _).mpr ⟨hflen2, hfall2⟩
  refine le_trans (optimalMakespan_le W p.dropLast f.dropLast hg) ?_
  rw [heq]
  refine makespan_le_makespan (by rw [loadsOf_length, loadsOf_length]) ?_
  intro w
  rw [loadsOf_getD_fiber W p.dropLast f.dropLast hflen2 hfall2 w,
    loadsOf_getD_fiber W p f hflen hfall w]
  have hfd : ∀ i, i < p.dropLast.length →
      f.dropLast.getD i 0 = f.getD i 0 := by
    intro i hi
    have hi2 : i < f.dropLast.length := by rw [hflen2]; exact hi
    have hi3 : i < f.length := lt_of_lt_of_le hi2
      (by rw [List.length_dropLast]; omega)
    rw [List.getD_eq_getElem _ _ hi2, List.getD_eq_getElem _ _ hi3,
      List.getElem_dropLast]
  have hpd : ∀ i, i < p.dropLast.length →
      p.dropLast.getD i 0 = p.getD i 0 := by
    intro i hi
    have hi3 : i < p.length := lt_of_lt_of_le hi
      (by rw [List.length_dropLast]; omega)
    rw [List.getD_eq_getElem _ _ hi, List.getD_eq_getElem _ _ hi3,
      List.getElem_dropLast]
  have hfilter_eq : (Finset.range p.dropLast.length).filter
      (fun i => f.dropLast.getD i 0 = w) =
      (Finset.range p.dropLast.length).filter (fun i => f.getD i 0 = w) := by
    refine Finset.filter_congr ?_
    intro i hi
    rw [hfd i (Finset.mem_range.mp hi)]
  rw [hfilter_eq]
  have hsum_eq : ∑ i ∈ (Finset.range p.dropLast.length).filter
      (fun i => f.getD i 0 = w), p.dropLast.getD i 0 =
      ∑ i ∈ (Finset.range p.dropLast.length).filter
      (fun i => f.getD i 0 = w), p.getD i 0 := by
    refine Finset.sum_congr rfl ?_
    intro i hi
    exact hpd i (Finset.mem_range.mp (Finset.mem_filter.mp hi).1)
  rw [hsum_eq]
  refine Finset.sum_le_sum_of_subset_of_nonneg ?_ ?_
  · refine Finset.filter_subset_filter _ ?_
    refine Finset.range_subset.mpr ?_
    rw [List.length_dropLast]
    omega
  · intro i hi _
    have hin : i < p.length :=
      Finset.mem_range.mp (Finset.mem_filter.mp hi).1
    rw [List.getD_eq_getElem _ _ hin]
    exact hnn _ (List.getElem_mem _)

/-! ## Graham's bound for the greedy loads on a descending job list -/

theorem lpt_bound_sorted (W : ℕ) (hW : 1 ≤ W) (p : List ℚ)
    (hsorted : p.Pairwise (fun a b : ℚ => b ≤ a))
    (hnn : ∀ x ∈ p, 0 ≤ x) :
    makespan (lptLoads W p) ≤
      (4 / 3 - 1 / (3 * (W : ℚ))) * optimalMakespan W p := by
  induction p using List.reverseRecOn with
  | nil =>
      have h0 : makespan (lptLoads W []) ≤ 0 := by
        refine makespan_le le_rfl ?_
        intro x hx
        have hx0 : x = 0 := List.eq_of_mem_replicate hx
        exact le_of_eq hx0
      exact le_trans h0 (mul_nonneg (rho_nonneg W hW)
        (optimalMakespan_nonneg W hW []))
  | append_singleton q a ih =>
      have hsq : q.Pairwise (fun a b : ℚ => b ≤ a) :=
        hsorted.sublist (List.sublist_append_left q [a])
      have hnq : ∀ x ∈ q, 0 ≤ x := fun x hx =>
        hnn x (List.mem_append_left _ hx)
      have ha0 : 0 ≤ a := hnn a (List.mem_append_right _ (List.mem_singleton_self a))
      have hT0 : 0 ≤ optimalMakespan W (q ++ [a]) :=
        optimalMakespan_nonneg W hW _
      set T := optimalMakespan W (q ++ [a]) with hT
      have hlen : (q ++ [a]).length = q.length + 1 := by simp
      have hlast : (q ++ [a]).getD q.length 0 = a := by
        rw [List.getD_eq_getElem _ _ (by omega)]
        exact List.getElem_concat_length q a q.length rfl (by simp)
      rcases le_or_lt a (T / 3) with hcase | hcase
      · set L := lptLoads W q with hL
        have hLlen : L.length = W := lptLoads_length W q
        have hLne : L ≠ [] := lptLoads_ne_nil W hW q
        have hargW : argmin L < W := by
          rw [← hLlen]
          exact argmin_lt_length hLne
        have hstep : lptLoads W (q ++ [a]) = addAt L (argmin L) a := by
          rw [lptLoads_append_singleton]
          rfl
        rw [hstep]
        have hmax : makespan (addAt L (argmin L) a) =
            max (makespan L) (L.getD (argmin L) 0 + a) := by
          show makespan (L.set (argmin L)
            (L.getD (argmin L) 0 + a)) = _
          exact makespan_set_max (by rw [hLlen]; exact hargW)
            (le_add_of_nonneg_right ha0)
        rw [hmax]
        refine max_le ?_ ?_
        · refine le_trans (ih hsq hnq) ?_
          have hdrop : (q ++ [a]).dropLast = q := List.dropLast_concat
          have hle := opt_dropLast_le W hW (q ++ [a]) hnn
          rw [hdrop] at hle
          exact mul_le_mul_of_nonneg_left hle (rho_nonneg W hW)
        · have hmin : (W : ℚ) * L.getD (argmin L) 0 ≤ q.sum := by
            have h1 : (L.length : ℚ) * L.getD (argmin L) 0 ≤ L.sum :=
              length_mul_le_sum L _ (fun j hj => argmin_le hLne hj)
            rw [hLlen, lptLoads_sum W hW q] at h1
            exact h1
          have hsum : q.sum + a ≤ (W : ℚ) * T := by
            have h2 := sum_le_mul_optimalMakespan W hW (q ++ [a])
            rw [List.sum_append, List.sum_singleton] at h2
            exact h2
          have hW0 : (0 : ℚ) < (W : ℚ) := by
            exact_mod_cast Nat.lt_of_lt_of_le Nat.zero_lt_one hW
          have hW1 : (1 : ℚ) ≤ (W : ℚ) := by exact_mod_cast hW
          have hkey : (4 / 3 - 1 / (3 * (W : ℚ))) * T =
              ((4 * (W : ℚ) - 1) * T) / (3 * (W : ℚ)) := by
            field_simp
            ring
          rw [hkey, le_div_iff (by positivity)]
          have hprod : 0 ≤ ((W : ℚ) - 1) * (T - 3 * a) :=
            mul_nonneg (by linarith) (by linarith)
          nlinarith [hprod, hmin, hsum]
      · have hbig : ∀ i, i < (q ++ [a]).length →
            T / 3 < (q ++ [a]).getD i 0 := by
          intro i hi
          have h1 : (q ++ [a]).getD q.length 0 ≤ (q ++ [a]).getD i 0 :=
            sorted_getD_mono hsorted (by omega) (by omega)
          rw [hlast] at h1
          exact lt_of_lt_of_le hcase h1
        have hpos : ∀ x ∈ q ++ [a], 0 < x := by
          intro x hx
          obtain ⟨i, hi, hval⟩ := List.getElem_of_mem hx
          have h1 := hbig i hi
          rw [List.getD_eq_getElem _ _ hi, hval] at h1
          exact lt_of_le_of_lt (div_nonneg hT0 (by norm_num)) h1
        obtain ⟨f, hf, heq⟩ := optimalMakespan_attained W hW (q ++ [a])
        obtain ⟨hflen, hfall⟩ :=
          (mem_allAssignments W (q ++ [a]).length f).mp hf
        have hmk : makespan (loadsOf W (q ++ [a]) f) ≤ T := le_of_eq heq.symm
        have hn2W : (q ++ [a]).length ≤ 2 * W :=
          opt_length_le W (q ++ [a]) f hflen hfall T hmk hbig
        have hp0 : (q ++ [a]).getD 0 0 ≤ T := by
          refine le_optimalMakespan_of_mem W hW (q ++ [a]) hnn ?_
          rw [List.getD_eq_getElem _ _ (by omega)]
          exact List.getElem_mem _
        have hhard := lptLoads_hard W hW (q ++ [a]) T hsorted hpos hn2W
          hT0 hp0 (fun j hWj hjn =>
            opt_pair_bound W (q ++ [a]) hsorted f hflen hfall T hmk hbig
              j hWj hjn)
        refine le_trans hhard ?_
        exact le_mul_of_one_le_left hT0 (one_le_rho W hW)

/-- C1: for every worker count `W ≥ 1` and every list of non-negative job
durations, the makespan of the assignment produced by the LPT assigner
`lpt` (the maximum over workers of that worker total assigned duration) is
at most `4/3 - 1/(3W)` times the minimum possible makespan over all
assignments of those jobs to `W` workers. -/
theorem lpt_approximation_bound (W : ℕ) (hW : 1 ≤ W)
    (jobs : List ℚ) (hnn : ∀ x ∈ jobs, 0 ≤ x) :
    makespan (lpt W jobs).bins ≤
      (4 / 3 - 1 / (3 * (W : ℚ))) * optimalMakespan W jobs := by
  rw [lpt_bins_eq]
  have hperm : (lptOrder jobs).Perm (List.range jobs.length) :=
    lptOrder_perm jobs
  have hsorted : ((lptOrder jobs).map (fun i => jobs.getD i 0)).Pairwise
      (fun a b : ℚ => b ≤ a) := by
    rw [List.pairwise_map]
    refine (lptOrder_sorted_desc jobs).imp ?_
    intro i j hij
    rcases hij with h | ⟨h, -⟩
    · exact le_of_lt h
    · exact le_of_eq h.symm
  have hnnp : ∀ x ∈ (lptOrder jobs).map (fun i => jobs.getD i 0),
      0 ≤ x := by
    intro x hx
    obtain ⟨i, hi, rfl⟩ := List.mem_map.mp hx
    have hin : i < jobs.length :=
      List.mem_range.mp (hperm.mem_iff.mp hi)
    rw [List.getD_eq_getElem _ _ hin]
    exact hnn _ (List.getElem_mem _)
  refine le_trans (lpt_bound_sorted W hW _ hsorted hnnp) ?_
  exact mul_le_mul_of_nonneg_left
    (optimalMakespan_sorted_le W hW jobs _ hperm) (rho_nonneg W hW)

theorem lpt_approximation_bound_witness :
    makespan (lpt 2 [5, 5, 4, 4, 4]).bins ≤
      (4 / 3 - 1 / (3 * ((2 : ℕ) : ℚ))) * optimalMakespan 2 [5, 5, 4, 4, 4] :=
  lpt_approximation_bound 2 (by decide) [5, 5, 4, 4, 4] (by decide)

end CoronaDrones
